import Mathlib

/-!
A shallow embedding of the hierarchical key-value `Store` of this repository
(`src/store.ts`, the completed version of the file).  The TypeScript class
mutates a heap of JavaScript objects through references, so the embedding is
heap-based: plain objects live at numeric addresses, `Store` instances are a
record (constructor name, `defaultPolicy`, address of the backing object
`this.store`), and every operation threads an explicit `Heap`.  Paths are
modelled as the list of segments produced by `path.split(":")`; the source's
`slice(0, i+1).join(":")` followed by a re-split is the identity on such
segment lists (segments coming from a split contain no colon), so the
embedding works on segment lists directly.  Zero-argument producer values are
modelled as pure closures returning a fixed `StoreResult`
(`Store | JSONPrimitive | undefined`), exactly the TypeScript type
`() => StoreResult`.  Recursion through the heap (child `Store` hops, nested
entry flattening) is bounded by fuel; running out of fuel is a distinguished
error that no theorem ever confuses with the program's own outcomes.
-/

namespace StoreTS

/-- JSON primitive values (`JSONPrimitive`): strings, numbers, booleans, null. -/
inductive Prim where
  | str (s : String)
  | num (n : Int)
  | bool (b : Bool)
  | null
deriving DecidableEq, Repr

/-- What a zero-argument producer may return: `StoreResult = Store | JSONPrimitive | undefined`. -/
inductive FnRet where
  | prim (p : Prim)
  | storeRef (a : Nat)
  | undef
deriving DecidableEq, Repr

/-- A runtime value held in an object field or produced by an expression:
a primitive, a reference to a plain object (arrays are plain objects with
index keys for every operation this code performs on them), a reference to a
`Store` instance, a producer closure, or `undefined`. -/
inductive Val where
  | prim (p : Prim)
  | obj (a : Nat)
  | store (a : Nat)
  | fn (r : FnRet)
  | undef
deriving DecidableEq, Repr

/-- `export type Permission = "r" | "w" | "rw" | "none";` -/
inductive Permission where
  | r
  | w
  | rw
  | none
deriving DecidableEq, Repr

/-- `permission.includes("r")` for the four permission strings. -/
def permIncludesR : Permission → Bool
  | .r => true
  | .rw => true
  | _ => false

/-- `permission.includes("w")` for the four permission strings. -/
def permIncludesW : Permission → Bool
  | .w => true
  | .rw => true
  | _ => false

/-- The string the tag denotes, as stored in the runtime field `defaultPolicy`. -/
def permString : Permission → String
  | .r => "r"
  | .w => "w"
  | .rw => "rw"
  | .none => "none"

/-- Data of one `Store` instance: the runtime constructor name (used by
`generateKey`), the mutable public field `defaultPolicy`, and the address of
the backing plain object `this.store` (initialized to `{}`). -/
structure StoreData where
  className : String
  defaultPolicy : Permission
  backing : Nat
deriving DecidableEq, Repr

/-- The heap: plain objects (ordered field lists, mirroring JS property order)
and `Store` instances, both addressed by `Nat`, plus the next fresh address. -/
structure Heap where
  objs : Nat → Option (List (String × Val))
  stores : Nat → Option StoreData
  next : Nat

/-- The process-wide `permissions` map, keyed by `generateKey`'s string
`` `${target.constructor.name}.${String(propertyKey)}` ``. -/
def Perms := List (String × Permission)

/-- `generateKey(target, propertyKey)`. -/
def generateKey (className key : String) : String :=
  className ++ "." ++ key

/-- `permissions.get(key)` over the association list. -/
def permsGet : Perms → String → Option Permission
  | [], _ => Option.none
  | (k, p) :: rest, key => if k = key then some p else permsGet rest key

/-- `getPermission(target, propertyKey)`. -/
def getPermission (P : Perms) (sd : StoreData) (key : String) : Option Permission :=
  permsGet P (generateKey sd.className key)

/-- `allowedToRead`: `(getPermission(this, key) ?? this.defaultPolicy).includes("r")`. -/
def allowedToRead (P : Perms) (sd : StoreData) (key : String) : Bool :=
  permIncludesR ((getPermission P sd key).getD sd.defaultPolicy)

/-- `allowedToWrite`: `(getPermission(this, key) ?? this.defaultPolicy).includes("w")`. -/
def allowedToWrite (P : Perms) (sd : StoreData) (key : String) : Bool :=
  permIncludesW ((getPermission P sd key).getD sd.defaultPolicy)

/-- JavaScript truthiness of the modelled values: `0`, `""`, `false`, `null`
and `undefined` are falsy; objects, stores and functions are truthy. -/
def truthy : Val → Bool
  | .prim (.num 0) => false
  | .prim (.str "") => false
  | .prim (.bool false) => false
  | .prim .null => false
  | .undef => false
  | _ => true

/-- `typeof v === "object"`: plain objects, `Store` instances and `null`. -/
def jsTypeofObject : Val → Bool
  | .obj _ => true
  | .store _ => true
  | .prim .null => true
  | _ => false

/-- `v instanceof Store`. -/
def isStoreVal : Val → Bool
  | .store _ => true
  | _ => false

/-- The value a producer call returns, as a `Val`. -/
def FnRet.toVal : FnRet → Val
  | .prim p => .prim p
  | .storeRef a => .store a
  | .undef => (.undef)

/-- `callIfIsAFunction`: invoke the value if it is a producer. -/
def callIfIsAFunction : Val → Val
  | .fn r => r.toVal
  | v => v

/-- First-match association-list lookup (JS property read). -/
def lookupA : List (String × Val) → String → Option Val
  | [], _ => Option.none
  | (k, v) :: rest, key => if k = key then some v else lookupA rest key

/-- JS property assignment on an object: overwrite in place, else append. -/
def setA : List (String × Val) → String → Val → List (String × Val)
  | [], key, v => [(key, v)]
  | (k, w) :: rest, key, v =>
    if k = key then (key, v) :: rest else (k, w) :: setA rest key v

/-- Pointwise update of a partial function on `Nat`. -/
def updF {α : Type} (f : Nat → Option α) (a : Nat) (v : α) : Nat → Option α :=
  fun x => if x = a then some v else f x

/-- Replace the field list of the object at address `a`. -/
def setObj (σ : Heap) (a : Nat) (flds : List (String × Val)) : Heap :=
  { σ with objs := updF σ.objs a flds }

/-- Replace the data of the store at address `a`. -/
def setStore (σ : Heap) (a : Nat) (sd : StoreData) : Heap :=
  { σ with stores := updF σ.stores a sd }

/-- Allocate a fresh plain object with the given fields. -/
def allocObj (σ : Heap) (flds : List (String × Val)) : Nat × Heap :=
  (σ.next, { σ with objs := updF σ.objs σ.next flds, next := σ.next + 1 })

/-- `new Store()`: allocate the backing `{}` and the instance
(constructor name `"Store"`, `defaultPolicy = "rw"`). -/
def allocStore (σ : Heap) : Nat × Heap :=
  (σ.next + 1,
   { σ with
     objs := updF σ.objs σ.next [],
     stores := updF σ.stores (σ.next + 1) ⟨"Store", .rw, σ.next⟩,
     next := σ.next + 2 })

/-- The errors an operation can end in: the source's `"Permission denied"`
`Error`, a strict-mode JavaScript `TypeError` (property write on a primitive,
`Object.keys(null)`), a dangling address (never reached from well-formed
states), and fuel exhaustion of the embedding. -/
inductive Err where
  | permissionDenied
  | typeError
  | badRef
  | fuelOut
deriving DecidableEq, Repr

/-- Outcome of a run: a result or an error, together with the final heap
(JavaScript exceptions do not roll the heap back). -/
inductive Res (α : Type) where
  | ok (a : α) (σ : Heap)
  | err (e : Err) (σ : Heap)

/-- The value component of an outcome, heap discarded. -/
inductive Out (α : Type) where
  | ok (a : α)
  | err (e : Err)
deriving DecidableEq, Repr

/-- Project the value component of a `Res`. -/
def Res.val {α : Type} : Res α → Out α
  | .ok a _ => .ok a
  | .err e _ => .err e

/-- Project the final heap of a `Res`. -/
def Res.st {α : Type} : Res α → Heap
  | .ok _ σ => σ
  | .err _ σ => σ

/-- The object's enumerable own properties, as seen by `for (const key in …)`
and by `transformEntriesIntoPaths`.  On a plain object these are its fields;
on a `Store` instance they are the instance fields `store` (the backing
object) and `defaultPolicy` (the permission string), in declaration order —
TypeScript `private` does not remove `store` from the runtime object, and
class methods are non-enumerable prototype properties; on `null` the
iteration is empty. -/
def fieldsForIn (σ : Heap) : Val → List (String × Val)
  | .obj a => (σ.objs a).getD []
  | .store a =>
    match σ.stores a with
    | some sd => [("store", .obj sd.backing), ("defaultPolicy", .prim (.str (permString sd.defaultPolicy)))]
    | Option.none => []
  | _ => []

mutual

/-- `read(path)`: `getHasPermissionToReadAt` (check `allowedToRead` of the
first path segment on this node), then `readValueWithoutPermission`. -/
def read (P : Perms) (fuel : Nat) (sa : Nat) (keys : List String) (σ : Heap) : Res Val :=
  match fuel with
  | 0 => .err .fuelOut σ
  | fuel + 1 =>
    match σ.stores sa with
    | Option.none => .err .badRef σ
    | some sd =>
      match keys with
      | [] => .err .badRef σ
      | k0 :: _ =>
        if allowedToRead P sd k0 then readVWP P fuel sa keys σ
        else .err .permissionDenied σ
termination_by structural fuel


/-- `readValueWithoutPermission`: index the backing object by the first
segment, materialize a producer, then run the remaining segments. -/
def readVWP (P : Perms) (fuel : Nat) (sa : Nat) (keys : List String) (σ : Heap) : Res Val :=
  match fuel with
  | 0 => .err .fuelOut σ
  | fuel + 1 =>
    match σ.stores sa with
    | Option.none => .err .badRef σ
    | some sd =>
      match σ.objs sd.backing with
      | Option.none => .err .badRef σ
      | some flds =>
        match keys with
        | [] => .err .badRef σ
        | k0 :: rest =>
          let cv := callIfIsAFunction ((lookupA flds k0).getD .undef)
          getVWRT P fuel sa rest cv σ
termination_by structural fuel


/-- `getValueWithRightType`'s loop over the remaining segments: stop with
`undefined` on a falsy value, delegate one segment to a child `Store`
(a permission-checked `read`), index a plain object, leave any other value
unchanged, and materialize a producer after every step. -/
def getVWRT (P : Perms) (fuel : Nat) (sa : Nat) (keys : List String) (cv : Val) (σ : Heap) : Res Val :=
  match fuel with
  | 0 => .err .fuelOut σ
  | fuel + 1 =>
    match keys with
    | [] => .ok cv σ
    | k :: rest =>
      if truthy cv then
        match cv with
        | .store s =>
          match read P fuel s [k] σ with
          | .ok v σ' => getVWRT P fuel sa rest (callIfIsAFunction v) σ'
          | .err e σ' => .err e σ'
        | .obj a =>
          match σ.objs a with
          | Option.none => .err .badRef σ
          | some flds =>
            getVWRT P fuel sa rest (callIfIsAFunction ((lookupA flds k).getD .undef)) σ
        | _ => getVWRT P fuel sa rest (callIfIsAFunction cv) σ
      else .ok .undef σ
termination_by structural fuel


/-- `findStoreToWriteTo`'s loop: for each strict prefix of the path, read it
without the root's own permission check; whenever a child `Store` distinct
from the current candidate appears, it becomes the candidate and the checked
key becomes the following segment. -/
def findLoop (P : Perms) (fuel : Nat) (sa : Nat) (keys : List String) (i : Nat) (cur : Nat) (key : String) (σ : Heap) : Res (Nat × String) :=
  match fuel with
  | 0 => .err .fuelOut σ
  | fuel + 1 =>
    if i < keys.length - 1 then
      match readVWP P fuel sa (keys.take (i + 1)) σ with
      | .err e σ' => .err e σ'
      | .ok v σ' =>
        match v with
        | .store a =>
          if a ≠ cur then findLoop P fuel sa keys (i + 1) a (keys.getD (i + 1) "") σ'
          else findLoop P fuel sa keys (i + 1) cur key σ'
        | _ => findLoop P fuel sa keys (i + 1) cur key σ'
    else .ok (cur, key) σ
termination_by structural fuel


/-- `findStoreToWriteTo`: start from this node and the first segment. -/
def findStoreToWriteTo (P : Perms) (fuel : Nat) (sa : Nat) (keys : List String) (σ : Heap) : Res (Nat × String) :=
  match fuel with
  | 0 => .err .fuelOut σ
  | fuel + 1 =>
    match keys with
    | [] => .err .badRef σ
    | k0 :: _ => findLoop P fuel sa keys 0 sa k0 σ


/-- `getHasPermissionToWriteAt`: resolve the owning store, then throw
`"Permission denied"` unless it `allowedToWrite` the resolved key. -/
def getHasPermissionToWriteAt (P : Perms) (fuel : Nat) (sa : Nat) (keys : List String) (σ : Heap) : Res Unit :=
  match fuel with
  | 0 => .err .fuelOut σ
  | fuel + 1 =>
    match findStoreToWriteTo P fuel sa keys σ with
    | .err e σ' => .err e σ'
    | .ok (st, key) σ' =>
      match σ'.stores st with
      | Option.none => .err .badRef σ'
      | some sd =>
        if allowedToWrite P sd key then .ok () σ'
        else .err .permissionDenied σ'


/-- `writeNestedKey`: on a child `Store`, delegate `write(currentKey, {})`
and continue with the value written (the very `{}` object, by reference);
otherwise create a child `Store` when the segment is the sentinel `"store"`,
else a plain `{}` (a strict-mode property write, so a primitive target
throws `TypeError`). -/
def writeNestedKey (P : Perms) (fuel : Nat) (cv : Val) (key : String) (σ : Heap) : Res Val :=
  match fuel with
  | 0 => .err .fuelOut σ
  | fuel + 1 =>
    match cv with
    | .store s =>
      let (a, σ₁) := allocObj σ []
      match write P fuel s [key] (.obj a) σ₁ with
      | .err e σ' => .err e σ'
      | .ok _ σ' => .ok (.obj a) σ'
    | .obj a =>
      match σ.objs a with
      | Option.none => .err .badRef σ
      | some flds =>
        if key = "store" then
          let (s, σ₁) := allocStore σ
          .ok (.store s) (setObj σ₁ a (setA flds key (.store s)))
        else
          let (b, σ₁) := allocObj σ []
          .ok (.obj b) (setObj σ₁ a (setA flds key (.obj b)))
    | _ => .err .typeError σ
termination_by structural fuel


/-- `writeValuesUntilLastKey`'s loop over the intermediate segments: read the
cumulative sub-path with this node's full permission-checked `read`; descend
into a truthy value, otherwise create the missing container. -/
def writeValuesUntilLastKey (P : Perms) (fuel : Nat) (sa : Nat) (keys : List String) (i : Nat) (cv : Val) (σ : Heap) : Res Val :=
  match fuel with
  | 0 => .err .fuelOut σ
  | fuel + 1 =>
    if i < keys.length - 1 then
      match read P fuel sa (keys.take (i + 1)) σ with
      | .err e σ' => .err e σ'
      | .ok v σ' =>
        if truthy v then writeValuesUntilLastKey P fuel sa keys (i + 1) v σ'
        else
          match writeNestedKey P fuel cv (keys.getD i "") σ' with
          | .err e σ'' => .err e σ''
          | .ok cv' σ'' => writeValuesUntilLastKey P fuel sa keys (i + 1) cv' σ''
    else .ok cv σ
termination_by structural fuel


/-- `writeLastKeyValue`: a non-`Store`, non-empty object value fans out
through `writeEntries` scoped under the *last segment only*; otherwise a
child-`Store` container takes a delegated leaf `write`; otherwise a direct
property assignment (strict mode: `TypeError` on a primitive target).
`isEmptyObject(null)` is `Object.keys(null)`, a `TypeError`. -/
def writeLastKeyValue (P : Perms) (fuel : Nat) (sa : Nat) (keys : List String) (v : Val) (cv : Val) (σ : Heap) : Res Unit :=
  match fuel with
  | 0 => .err .fuelOut σ
  | fuel + 1 =>
    let lastKey := keys.getD (keys.length - 1) ""
    if ¬ isStoreVal v ∧ jsTypeofObject v then
      match v with
      | .prim .null => .err .typeError σ
      | .obj va =>
        match σ.objs va with
        | Option.none => .err .badRef σ
        | some vflds =>
          if vflds.isEmpty then
            -- empty object: fall through to the assignment branches
            match cv with
            | .store s =>
              match write P fuel s [lastKey] v σ with
              | .err e σ' => .err e σ'
              | .ok _ σ' => .ok () σ'
            | .obj a =>
              match σ.objs a with
              | Option.none => .err .badRef σ
              | some flds => .ok () (setObj σ a (setA flds lastKey v))
            | _ => .err .typeError σ
          else
            match writeEntries P fuel sa v [lastKey] σ with
            | .err e σ' => .err e σ'
            | .ok _ σ' => .ok () σ'
      | _ => .err .badRef σ
    else
      match cv with
      | .store s =>
        match write P fuel s [lastKey] v σ with
        | .err e σ' => .err e σ'
        | .ok _ σ' => .ok () σ'
      | .obj a =>
        match σ.objs a with
        | Option.none => .err .badRef σ
        | some flds => .ok () (setObj σ a (setA flds lastKey v))
      | _ => .err .typeError σ
termination_by structural fuel


/-- `writeWithoutPermission`: walk the intermediate segments from the backing
object, then write the last segment; echo the value. -/
def writeWithoutPermission (P : Perms) (fuel : Nat) (sa : Nat) (keys : List String) (v : Val) (σ : Heap) : Res Val :=
  match fuel with
  | 0 => .err .fuelOut σ
  | fuel + 1 =>
    match σ.stores sa with
    | Option.none => .err .badRef σ
    | some sd =>
      match writeValuesUntilLastKey P fuel sa keys 0 (.obj sd.backing) σ with
      | .err e σ' => .err e σ'
      | .ok cv σ' =>
        match writeLastKeyValue P fuel sa keys v cv σ' with
        | .err e σ'' => .err e σ''
        | .ok _ σ'' => .ok v σ''
termination_by structural fuel


/-- `write(path, value)`: the permission-resolution phase, then the mutation
phase. -/
def write (P : Perms) (fuel : Nat) (sa : Nat) (keys : List String) (v : Val) (σ : Heap) : Res Val :=
  match fuel with
  | 0 => .err .fuelOut σ
  | fuel + 1 =>
    match getHasPermissionToWriteAt P fuel sa keys σ with
    | .err e σ' => .err e σ'
    | .ok _ σ' => writeWithoutPermission P fuel sa keys v σ'
termination_by structural fuel


/-- The loop of `writeEntries`: one `write` per produced path, prefixed by
the origin path when it is non-empty. -/
def writeEntriesLoop (P : Perms) (fuel : Nat) (sa : Nat) (pairs : List (List String × Val)) (originPath : List String) (σ : Heap) : Res Unit :=
  match fuel with
  | 0 => .err .fuelOut σ
  | fuel + 1 =>
    match pairs with
    | [] => .ok () σ
    | (p, v) :: rest =>
      let fullPath := if originPath.isEmpty then p else originPath ++ p
      match write P fuel sa fullPath v σ with
      | .err e σ' => .err e σ'
      | .ok _ σ' => writeEntriesLoop P fuel sa rest originPath σ'
termination_by structural fuel


/-- `writeEntries(entries, originPath)`. -/
def writeEntries (P : Perms) (fuel : Nat) (sa : Nat) (entriesV : Val) (originPath : List String) (σ : Heap) : Res Unit :=
  match fuel with
  | 0 => .err .fuelOut σ
  | fuel + 1 =>
    match transformEntriesIntoPaths P fuel entriesV [] [] σ with
    | .err e σ' => .err e σ'
    | .ok pairs σ' => writeEntriesLoop P fuel sa pairs originPath σ'
termination_by structural fuel


/-- `transformEntriesIntoPaths`: depth-first over `for (const key in entries)`;
a `typeof value === "object"` child (plain object, `Store` instance, or
`null`) is recursed into, anything else is pushed as a leaf. -/
def transformEntriesIntoPaths (P : Perms) (fuel : Nat) (entriesV : Val) (cur : List String) (acc : List (List String × Val)) (σ : Heap) : Res (List (List String × Val)) :=
  match fuel with
  | 0 => .err .fuelOut σ
  | fuel + 1 => transformLoop P fuel (fieldsForIn σ entriesV) cur acc σ
termination_by structural fuel


/-- The field iteration of `transformEntriesIntoPaths`. -/
def transformLoop (P : Perms) (fuel : Nat) (flds : List (String × Val)) (cur : List String) (acc : List (List String × Val)) (σ : Heap) : Res (List (List String × Val)) :=
  match fuel with
  | 0 => .err .fuelOut σ
  | fuel + 1 =>
    match flds with
    | [] => .ok acc σ
    | (k, v) :: rest =>
      if jsTypeofObject v then
        match transformEntriesIntoPaths P fuel v (cur ++ [k]) acc σ with
        | .err e σ' => .err e σ'
        | .ok acc' σ' => transformLoop P fuel rest cur acc' σ'
      else transformLoop P fuel rest cur (acc ++ [(cur ++ [k], v)]) σ
termination_by structural fuel

end

/-! ## Basic simp lemmas -/

@[simp] theorem Res.st_ok {α : Type} (a : α) (σ : Heap) : (Res.ok a σ).st = σ := rfl

@[simp] theorem Res.st_err {α : Type} (e : Err) (σ : Heap) : (Res.err (α := α) e σ).st = σ := rfl

@[simp] theorem Res.val_ok {α : Type} (a : α) (σ : Heap) : (Res.ok a σ).val = .ok a := rfl

@[simp] theorem Res.val_err {α : Type} (e : Err) (σ : Heap) : (Res.err (α := α) e σ).val = .err e := rfl

@[simp] theorem updF_self {α : Type} (f : Nat → Option α) (a : Nat) (v : α) : updF f a v a = some v := by
  simp [updF]

theorem updF_other {α : Type} (f : Nat → Option α) (a x : Nat) (v : α) (h : x ≠ a) :
    updF f a v x = f x := by
  simp [updF, h]


/-! ## The read family never changes the heap

`read`, `readValueWithoutPermission`, `getValueWithRightType`,
`findStoreToWriteTo` and `getHasPermissionToWriteAt` only inspect the heap;
this is the backbone of several claims (reads are mutation-free, a failed
permission-resolution phase leaves the tree intact). -/

theorem readFamily_preserves (fuel : Nat) :
    (∀ P sa keys σ, (read P fuel sa keys σ).st = σ) ∧
    (∀ P sa keys σ, (readVWP P fuel sa keys σ).st = σ) ∧
    (∀ P sa keys cv σ, (getVWRT P fuel sa keys cv σ).st = σ) ∧
    (∀ P sa keys i cur key σ, (findLoop P fuel sa keys i cur key σ).st = σ) ∧
    (∀ P sa keys σ, (findStoreToWriteTo P fuel sa keys σ).st = σ) ∧
    (∀ P sa keys σ, (getHasPermissionToWriteAt P fuel sa keys σ).st = σ) := by
  induction fuel with
  | zero =>
    refine ⟨?_, ?_, ?_, ?_, ?_, ?_⟩ <;> intros <;>
      simp [read, readVWP, getVWRT, findLoop, findStoreToWriteTo, getHasPermissionToWriteAt]
  | succ f ih =>
    obtain ⟨ihr, ihv, ihg, ihl, ihf, ihp⟩ := ih
    have hg : ∀ P sa keys cv σ, (getVWRT P (f + 1) sa keys cv σ).st = σ := by
      intro P sa keys cv σ
      match keys with
      | [] => simp [getVWRT]
      | k :: rest =>
        match cv with
        | .store s =>
          simp only [getVWRT, truthy, ite_true]
          split
          · rename_i v σ' hread
            have hst := ihr P s [k] σ
            rw [hread] at hst
            simp only [Res.st_ok] at hst
            rw [hst]
            exact ihg ..
          · rename_i e σ' hread
            have hst := ihr P s [k] σ
            rw [hread] at hst
            simp only [Res.st_err] at hst
            rw [hst]
            rfl
        | .obj a =>
          simp only [getVWRT, truthy, ite_true]
          split
          · rfl
          · exact ihg ..
        | .prim p =>
          simp only [getVWRT]
          split
          · exact ihg ..
          · rfl
        | .fn r =>
          simp only [getVWRT, truthy, ite_true]
          exact ihg ..
        | .undef =>
          simp [getVWRT, truthy]
    have hv : ∀ P sa keys σ, (readVWP P (f + 1) sa keys σ).st = σ := by
      intro P sa keys σ
      simp only [readVWP]
      split
      · rfl
      · split
        · rfl
        · split
          · rfl
          · exact ihg ..
    have hr : ∀ P sa keys σ, (read P (f + 1) sa keys σ).st = σ := by
      intro P sa keys σ
      simp only [read]
      split
      · rfl
      · split
        · rfl
        · split
          · exact ihv ..
          · rfl
    have hl : ∀ P sa keys i cur key σ, (findLoop P (f + 1) sa keys i cur key σ).st = σ := by
      intro P sa keys i cur key σ
      simp only [findLoop]
      split
      · split
        · rename_i e σ' hread
          have hst := ihv P sa (keys.take (i + 1)) σ
          rw [hread] at hst
          simp only [Res.st_err] at hst
          rw [hst]
          rfl
        · rename_i v σ' hread
          have hst := ihv P sa (keys.take (i + 1)) σ
          rw [hread] at hst
          simp only [Res.st_ok] at hst
          rw [hst]
          split
          · split
            · exact ihl ..
            · exact ihl ..
          · exact ihl ..
      · rfl
    have hf : ∀ P sa keys σ, (findStoreToWriteTo P (f + 1) sa keys σ).st = σ := by
      intro P sa keys σ
      simp only [findStoreToWriteTo]
      split
      · rfl
      · exact ihl ..
    have hp : ∀ P sa keys σ, (getHasPermissionToWriteAt P (f + 1) sa keys σ).st = σ := by
      intro P sa keys σ
      simp only [getHasPermissionToWriteAt]
      split
      · rename_i e σ' hfind
        have hst := ihf P sa keys σ
        rw [hfind] at hst
        simp only [Res.st_err] at hst
        rw [hst]
        rfl
      · rename_i pr σ' hfind
        have hst := ihf P sa keys σ
        rw [hfind] at hst
        simp only [Res.st_ok] at hst
        rw [hst]
        split
        · rfl
        · split
          · rfl
          · rfl
    exact ⟨hr, hv, hg, hl, hf, hp⟩

/-- Heap preservation of `read`, in the form used downstream. -/
theorem read_st (P : Perms) (fuel sa : Nat) (keys : List String) (σ : Heap) :
    (read P fuel sa keys σ).st = σ :=
  (readFamily_preserves fuel).1 P sa keys σ

/-- Heap preservation of `readVWP`. -/
theorem readVWP_st (P : Perms) (fuel sa : Nat) (keys : List String) (σ : Heap) :
    (readVWP P fuel sa keys σ).st = σ :=
  (readFamily_preserves fuel).2.1 P sa keys σ

/-- Heap preservation of `getVWRT`. -/
theorem getVWRT_st (P : Perms) (fuel sa : Nat) (keys : List String) (cv : Val) (σ : Heap) :
    (getVWRT P fuel sa keys cv σ).st = σ :=
  (readFamily_preserves fuel).2.2.1 P sa keys cv σ

/-- Heap preservation of `findStoreToWriteTo`. -/
theorem findStoreToWriteTo_st (P : Perms) (fuel sa : Nat) (keys : List String) (σ : Heap) :
    (findStoreToWriteTo P fuel sa keys σ).st = σ :=
  (readFamily_preserves fuel).2.2.2.2.1 P sa keys σ

/-- Heap preservation of `getHasPermissionToWriteAt`. -/
theorem getHasPermissionToWriteAt_st (P : Perms) (fuel sa : Nat) (keys : List String) (σ : Heap) :
    (getHasPermissionToWriteAt P fuel sa keys σ).st = σ :=
  (readFamily_preserves fuel).2.2.2.2.2 P sa keys σ


/-! ## Small-step characterizations -/

/-- Once the walked value is `undefined`, the remaining-segment loop returns
`undefined` (the `!currentValue` early return), and immediately so. -/
theorem getVWRT_undef (P : Perms) (g sa : Nat) (rest : List String) (σ : Heap) :
    getVWRT P (g + 1) sa rest .undef σ = .ok .undef σ := by
  match rest with
  | [] => rfl
  | k :: t => rfl

/-- Reading any path whose first segment is absent from the backing object
(or is a producer returning `undefined`) yields `undefined` without touching
permissions beyond the entry check. -/
theorem readVWP_absent (P : Perms) (g sa : Nat) (k0 : String) (rest : List String) (σ : Heap)
    (sd : StoreData) (flds : List (String × Val))
    (hs : σ.stores sa = some sd) (hb : σ.objs sd.backing = some flds)
    (ha : callIfIsAFunction ((lookupA flds k0).getD .undef) = .undef) :
    readVWP P (g + 2) sa (k0 :: rest) σ = .ok .undef σ := by
  simp only [readVWP, hs, hb, ha]
  exact getVWRT_undef ..

/-- `read` of a path whose first segment is readable but absent: `undefined`,
no error. -/
theorem read_absent (P : Perms) (g sa : Nat) (k0 : String) (rest : List String) (σ : Heap)
    (sd : StoreData) (flds : List (String × Val))
    (hs : σ.stores sa = some sd) (hb : σ.objs sd.backing = some flds)
    (hr : allowedToRead P sd k0 = true)
    (ha : callIfIsAFunction ((lookupA flds k0).getD .undef) = .undef) :
    read P (g + 3) sa (k0 :: rest) σ = .ok .undef σ := by
  simp only [read, hs, hr, if_true]
  exact readVWP_absent P g sa k0 rest σ sd flds hs hb ha

/-- `read` of a single-segment path: the permission gate on that segment,
then the backing-object lookup with producer materialization. -/
theorem read_singleKey (P : Perms) (g sa : Nat) (k : String) (σ : Heap)
    (sd : StoreData) (flds : List (String × Val))
    (hs : σ.stores sa = some sd) (hb : σ.objs sd.backing = some flds) :
    read P (g + 3) sa [k] σ =
      if allowedToRead P sd k then .ok (callIfIsAFunction ((lookupA flds k).getD .undef)) σ
      else .err .permissionDenied σ := by
  simp only [read, hs]
  split
  · simp only [readVWP, hs, hb]
    rfl
  · rfl

/-- `findStoreToWriteTo` on a single-segment path resolves to this node and
that segment. -/
theorem findStoreToWriteTo_singleKey (P : Perms) (g sa : Nat) (k : String) (σ : Heap) :
    findStoreToWriteTo P (g + 2) sa [k] σ = .ok (sa, k) σ := by
  simp only [findStoreToWriteTo, findLoop]
  norm_num

/-- A denied single-segment write: permission resolution finds this node,
`allowedToWrite` fails, the call throws and the heap is untouched. -/
theorem write_singleKey_denied (P : Perms) (g sa : Nat) (k : String) (v : Val) (σ : Heap)
    (sd : StoreData) (hs : σ.stores sa = some sd)
    (hw : allowedToWrite P sd k = false) :
    write P (g + 4) sa [k] v σ = .err .permissionDenied σ := by
  simp only [write, getHasPermissionToWriteAt, findStoreToWriteTo_singleKey P g sa k σ, hs, hw]
  rfl

/-- A permitted single-segment write of a directly-assignable value (anything
but a non-empty plain object or `null`, which take other branches): the value
is stored into the backing object and echoed. -/
theorem write_singleKey_ok (P : Perms) (g sa : Nat) (k : String) (v : Val) (σ : Heap)
    (sd : StoreData) (flds : List (String × Val))
    (hs : σ.stores sa = some sd) (hb : σ.objs sd.backing = some flds)
    (hw : allowedToWrite P sd k = true)
    (hv : jsTypeofObject v = false ∨ (∃ a, v = .obj a ∧ σ.objs a = some []) ∨ isStoreVal v = true) :
    write P (g + 4) sa [k] v σ = .ok v (setObj σ sd.backing (setA flds k v)) := by
  have h1 : write P (g + 4) sa [k] v σ = writeWithoutPermission P (g + 3) sa [k] v σ := by
    simp only [write, getHasPermissionToWriteAt, findStoreToWriteTo_singleKey P g sa k σ,
      hs, hw, if_true]
  have h2 : writeValuesUntilLastKey P (g + 2) sa [k] 0 (.obj sd.backing) σ =
      .ok (.obj sd.backing) σ := by
    simp [writeValuesUntilLastKey]
  have h3 : writeLastKeyValue P (g + 2) sa [k] v (.obj sd.backing) σ =
      .ok () (setObj σ sd.backing (setA flds k v)) := by
    have hkey : ([k] : List String).getD (([k] : List String).length - 1) "" = k := rfl
    rcases hv with hA | ⟨a, rfl, ha⟩ | hC
    · match v, hA with
      | .prim (.str s), _ => simp [writeLastKeyValue, jsTypeofObject, hb]
      | .prim (.num n), _ => simp [writeLastKeyValue, jsTypeofObject, hb]
      | .prim (.bool b), _ => simp [writeLastKeyValue, jsTypeofObject, hb]
      | .fn r, _ => simp [writeLastKeyValue, jsTypeofObject, hb]
      | .undef, _ => simp [writeLastKeyValue, jsTypeofObject, hb]
    · simp [writeLastKeyValue, jsTypeofObject, isStoreVal, ha, hb]
    · match v, hC with
      | .store s, _ => simp [writeLastKeyValue, jsTypeofObject, isStoreVal, hb]
  rw [h1]
  simp only [writeWithoutPermission, hs, h2, h3]

/-! ## Test fixtures

Small concrete states used by the counterexamples and witnesses: a root store
of a derived class `Root` (address 1, backing object at 0), optionally a
child `Store` instance (address 3, backing at 2), and spare value objects. -/

/-- The root instance data of a derived store class (`class Root extends Store`). -/
def rootSD : StoreData := ⟨"Root", .rw, 0⟩

/-- The data of a plain `Store` instance (as produced by `new Store()`). -/
def childSD : StoreData := ⟨"Store", .rw, 2⟩

/-- A fresh root store: `new Root()` and nothing else. -/
def baseHeap : Heap :=
  { objs := fun x => if x = 0 then some [] else Option.none,
    stores := fun x => if x = 1 then some rootSD else Option.none,
    next := 2 }

/-- A fresh root store plus a non-empty plain object `{x: 1}` at address 2
(a value the test can pass to `write`). -/
def objXHeap : Heap :=
  { objs := fun x =>
      if x = 0 then some []
      else if x = 2 then some [("x", .prim (.num 1))]
      else Option.none,
    stores := fun x => if x = 1 then some rootSD else Option.none,
    next := 3 }

/-- A root store whose key `s` holds an (empty) child `Store` instance. -/
def childHeap : Heap :=
  { objs := fun x =>
      if x = 0 then some [("s", .store 3)]
      else if x = 2 then some []
      else Option.none,
    stores := fun x =>
      if x = 1 then some rootSD
      else if x = 3 then some childSD
      else Option.none,
    next := 4 }

/-! ## Claims about the permission gate and failure atomicity -/

/-- C2 (amended to values that take the direct-assignment branch: JSON
scalars other than `null`): for a single-segment key, `read` succeeds with
the (producer-materialized) stored value exactly when the effective
permission — the registry entry for `(constructor name, key)` if present,
else the node's `defaultPolicy` — includes `r`, and raises
`PermissionDenied` otherwise; `write` of a non-`null` scalar succeeds
(echoing the value) exactly when the effective permission includes `w`, and
raises `PermissionDenied` otherwise.  Instantiating the effective permission
gives the claim's table: `r` reads but not writes, `w` writes but not reads,
`none` neither, `rw` both, and a key without an entry falls back to
`defaultPolicy` (initially `rw`, hence readable and writable). -/
theorem claim_C2_permission_gate (P : Perms) (g sa : Nat) (k : String) (p : Prim) (σ : Heap)
    (sd : StoreData) (flds : List (String × Val))
    (hs : σ.stores sa = some sd) (hb : σ.objs sd.backing = some flds)
    (hp : p ≠ .null) :
    (read P (g + 3) sa [k] σ).val =
      (if permIncludesR ((getPermission P sd k).getD sd.defaultPolicy) then
        Out.ok (callIfIsAFunction ((lookupA flds k).getD .undef))
      else Out.err .permissionDenied) ∧
    (write P (g + 4) sa [k] (.prim p) σ).val =
      (if permIncludesW ((getPermission P sd k).getD sd.defaultPolicy) then Out.ok (.prim p)
      else Out.err .permissionDenied) := by
  constructor
  · rw [read_singleKey P g sa k σ sd flds hs hb]
    by_cases hR : permIncludesR ((getPermission P sd k).getD sd.defaultPolicy) = true
    · simp [allowedToRead, hR]
    · simp [allowedToRead, hR]
  · have hobj : jsTypeofObject (.prim p) = false := by
      match p, hp with
      | .str s, _ => rfl
      | .num n, _ => rfl
      | .bool b, _ => rfl
    by_cases hW : permIncludesW ((getPermission P sd k).getD sd.defaultPolicy) = true
    · rw [write_singleKey_ok P g sa k (.prim p) σ sd flds hs hb
        (by simpa [allowedToWrite] using hW) (Or.inl hobj)]
      simp [hW]
    · rw [write_singleKey_denied P g sa k (.prim p) σ sd hs
        (by simpa [allowedToWrite] using hW)]
      simp [hW]

/-- C2, failing part of the original claim: under registry tag `w` the claim
says `write` succeeds, but writing a non-empty plain object value raises
`PermissionDenied`: the flattening re-enters `write` on the longer path
`a:x`, whose mutation phase `read`s the prefix `a` with the root's read
check, which tag `w` denies. -/
theorem claim_C2_counterexample :
    getPermission [("Root.a", .w)] rootSD "a" = some .w ∧
    allowedToWrite [("Root.a", .w)] rootSD "a" = true ∧
    (write [("Root.a", .w)] 30 1 ["a"] (.obj 2) objXHeap).val = .err .permissionDenied := by
  decide

/-- Witness for C2: on a fresh root with empty registry (defaultPolicy `rw`),
key `a` both reads (`undefined`) and writes (echo). -/
theorem claim_C2_permission_gate_witness :
    (baseHeap.stores 1 = some rootSD ∧ baseHeap.objs rootSD.backing = some [] ∧
      (Prim.num 7) ≠ Prim.null) ∧
    (read [] 30 1 ["a"] baseHeap).val = .ok .undef ∧
    (write [] 30 1 ["a"] (.prim (.num 7)) baseHeap).val = .ok (.prim (.num 7)) :=
  ⟨⟨by decide, by decide, by decide⟩,
    (claim_C2_permission_gate [] 27 1 "a" (.num 7) baseHeap rootSD []
      (by decide) (by decide) (by decide)).1,
    (claim_C2_permission_gate [] 26 1 "a" (.num 7) baseHeap rootSD []
      (by decide) (by decide) (by decide)).2⟩

/-- C9: `read` is mutation-free — whatever it returns (a value, `undefined`,
or an error such as `PermissionDenied`), the final heap is exactly the
initial one, so the key→value mapping of the starting node and of every
descendant node is unchanged; in particular a stored producer is still
stored as the producer afterwards. -/
theorem claim_C9_read_is_mutation_free (P : Perms) (fuel sa : Nat) (keys : List String) (σ : Heap) :
    (read P fuel sa keys σ).st = σ :=
  read_st P fuel sa keys σ

/-- C8 (amended): reading a path whose first segment is permitted for read
and absent from this node's backing object returns `undefined` and raises
nothing, and reading a path whose first segment has registered permission
`none` raises `PermissionDenied`.  (The original claim's universal "addresses
no stored value ⇒ `undefined`" fails when the traversal delegates into a
child `Store` that denies read of the next segment — see the
counterexample.) -/
theorem claim_C8_absence_vs_error (P : Perms) (g sa : Nat) (k0 : String) (rest : List String)
    (σ : Heap) (sd : StoreData) (flds : List (String × Val))
    (hs : σ.stores sa = some sd) (hb : σ.objs sd.backing = some flds) :
    (allowedToRead P sd k0 = true → lookupA flds k0 = Option.none →
      (read P (g + 3) sa (k0 :: rest) σ).val = .ok .undef) ∧
    (getPermission P sd k0 = some .none →
      (read P (g + 3) sa (k0 :: rest) σ).val = .err .permissionDenied) := by
  constructor
  · intro hr ha
    rw [read_absent P g sa k0 rest σ sd flds hs hb hr (by rw [ha]; rfl)]
    rfl
  · intro hn
    have hr : allowedToRead P sd k0 = false := by
      simp [allowedToRead, hn, permIncludesR]
    simp [read, hs, hr]

/-- C8, failing part of the original claim: a path that addresses no stored
value (the child store's backing is empty) and whose first segment is
readable nevertheless raises `PermissionDenied`, because the traversal
delegates `read("b")` to the child `Store`, whose registry entry
`Store.b = none` denies it. -/
theorem claim_C8_counterexample :
    allowedToRead [("Store.b", .none)] rootSD "s" = true ∧
    childHeap.objs childSD.backing = some [] ∧
    (read [("Store.b", .none)] 30 1 ["s", "b"] childHeap).val = .err .permissionDenied := by
  decide

/-- Witness for C8: on a fresh root with empty registry,
`read("missing:path")` returns `undefined`, and with registry
`Root.secret = none`, `read("secret")` raises `PermissionDenied`. -/
theorem claim_C8_absence_vs_error_witness :
    (baseHeap.stores 1 = some rootSD ∧ baseHeap.objs rootSD.backing = some [] ∧
      allowedToRead [] rootSD "missing" = true ∧ lookupA [] "missing" = Option.none ∧
      getPermission [("Root.secret", .none)] rootSD "secret" = some .none) ∧
    (read [] 30 1 ["missing", "path"] baseHeap).val = .ok .undef ∧
    (read [("Root.secret", .none)] 30 1 ["secret"] baseHeap).val = .err .permissionDenied :=
  ⟨⟨by decide, by decide, by decide, by decide, by decide⟩,
    (claim_C8_absence_vs_error [] 27 1 "missing" ["path"] baseHeap rootSD []
      (by decide) (by decide)).1 (by decide) (by decide),
    (claim_C8_absence_vs_error [("Root.secret", .none)] 27 1 "secret" [] baseHeap rootSD []
      (by decide) (by decide)).2 (by decide)⟩

/-- C1 (amended): the write permission check is evaluated on the node
returned by the permission-resolution walk (`findStoreToWriteTo`) — the
deepest child `Store` reached along the path — for the segment following
that store hop, i.e. the segment mutated at that node: if that node
disallows write for that segment the call raises `PermissionDenied` with the
heap exactly unchanged, and if it allows it the resolution-phase check
passes.  (The original claim's "raises iff that node disallows write" and
"the root's own permissions do not decide" fail: the walk also performs
permission-checked reads — see the counterexample.) -/
theorem claim_C1_owning_node_write_check (P : Perms) (g sa : Nat) (keys : List String) (v : Val)
    (σ : Heap) (s : Nat) (k : String) (sd : StoreData)
    (hfind : (findStoreToWriteTo P (g + 2) sa keys σ).val = .ok (s, k))
    (hs : σ.stores s = some sd) :
    (allowedToWrite P sd k = false → write P (g + 4) sa keys v σ = .err .permissionDenied σ) ∧
    (allowedToWrite P sd k = true →
      (getHasPermissionToWriteAt P (g + 3) sa keys σ).val = .ok ()) := by
  have hst := findStoreToWriteTo_st P (g + 2) sa keys σ
  cases hres : findStoreToWriteTo P (g + 2) sa keys σ with
  | err e σ' =>
    rw [hres] at hfind
    exact absurd hfind (by simp)
  | ok pr σ' =>
    rw [hres] at hfind hst
    simp only [Res.val_ok, Res.st_ok] at hfind hst
    have hpr : pr = (s, k) := by
      cases hfind
      rfl
    subst hpr hst
    constructor
    · intro hw
      simp only [write, getHasPermissionToWriteAt, hres, hs, hw]
      rfl
    · intro hw
      simp only [getHasPermissionToWriteAt, hres, hs, hw]
      rfl

/-- C1, failing part of the original claim: root of class `Root` with
registry `Root.s = w` and a child `Store` at `s`; for `write("s:a:b", 5)`
the resolution finds the child store (address 3) with segment `a`, the child
allows write for `a` and for `b` (and the root allows write for `s`), yet
the call raises `PermissionDenied` — the mutation phase `read`s the prefix
`s` under the root's read check, which `w` denies. -/
theorem claim_C1_counterexample :
    (findStoreToWriteTo [("Root.s", .w)] 30 1 ["s", "a", "b"] childHeap).val = .ok (3, "a") ∧
    childHeap.stores 3 = some childSD ∧
    allowedToWrite [("Root.s", .w)] childSD "a" = true ∧
    allowedToWrite [("Root.s", .w)] childSD "b" = true ∧
    allowedToWrite [("Root.s", .w)] rootSD "s" = true ∧
    (write [("Root.s", .w)] 30 1 ["s", "a", "b"] (.prim (.num 5)) childHeap).val =
      .err .permissionDenied := by
  decide

/-- Witness for C1: same layout with an all-denying child registry entry
`Store.a = r`: the resolution finds the child store and segment `a`, the
child disallows write, and the call raises `PermissionDenied` leaving the
heap unchanged. -/
theorem claim_C1_owning_node_write_check_witness :
    ((findStoreToWriteTo [("Store.a", .r)] 28 1 ["s", "a", "b"] childHeap).val = .ok (3, "a") ∧
      childHeap.stores 3 = some childSD ∧
      allowedToWrite [("Store.a", .r)] childSD "a" = false) ∧
    write [("Store.a", .r)] 30 1 ["s", "a", "b"] (.prim (.num 5)) childHeap =
      .err .permissionDenied childHeap :=
  ⟨⟨by decide, by decide, by decide⟩,
    (claim_C1_owning_node_write_check [("Store.a", .r)] 26 1 ["s", "a", "b"] (.prim (.num 5))
      childHeap 3 "a" childSD (by decide) (by decide)).1 (by decide)⟩

/-- C6 (amended): any `write` whose permission-resolution phase
(`getHasPermissionToWriteAt`) fails — in particular with `PermissionDenied` —
aborts with that error and the heap exactly as before the call: the
resolution phase only reads.  (The original claim's "every `PermissionDenied`
leaves no partial mutation" fails for denials raised during the mutation
phase — see the counterexample.) -/
theorem claim_C6_resolution_failure_is_atomic (P : Perms) (g sa : Nat) (keys : List String)
    (v : Val) (σ : Heap) (e : Err)
    (hfail : (getHasPermissionToWriteAt P (g + 3) sa keys σ).val = .err e) :
    write P (g + 4) sa keys v σ = .err e σ := by
  have hst := getHasPermissionToWriteAt_st P (g + 3) sa keys σ
  cases hres : getHasPermissionToWriteAt P (g + 3) sa keys σ with
  | ok a σ' =>
    rw [hres] at hfail
    exact absurd hfail (by simp)
  | err e' σ' =>
    rw [hres] at hfail hst
    simp only [Res.val_err, Res.st_err] at hfail hst
    cases hfail
    subst hst
    simp only [write, hres]

/-- C6, failing part of the original claim: registry `Store.x = none`, fresh
root of class `Root`, `write("store:x:y", 5)`: the resolution phase passes
(the root allows write of `store`), the mutation phase creates the sentinel
child store under `store` and then raises `PermissionDenied` when its
prefix-read delegates into the new child, leaving the created child behind:
the root mapping gained the key `store`. -/
theorem claim_C6_counterexample :
    (write [("Store.x", .none)] 30 1 ["store", "x", "y"] (.prim (.num 5)) baseHeap).val =
      .err .permissionDenied ∧
    baseHeap.objs 0 = some [] ∧
    ((write [("Store.x", .none)] 30 1 ["store", "x", "y"] (.prim (.num 5)) baseHeap).st).objs 0 =
      some [("store", .store 3)] := by
  decide

/-- Witness for C6: a single-segment write denied by the registry aborts with
`PermissionDenied` and an unchanged heap. -/
theorem claim_C6_resolution_failure_is_atomic_witness :
    ((getHasPermissionToWriteAt [("Root.a", .r)] 29 1 ["a"] baseHeap).val =
      .err .permissionDenied) ∧
    write [("Root.a", .r)] 30 1 ["a"] (.prim (.num 5)) baseHeap =
      .err .permissionDenied baseHeap :=
  ⟨by decide,
    claim_C6_resolution_failure_is_atomic [("Root.a", .r)] 26 1 ["a"] (.prim (.num 5)) baseHeap
      .permissionDenied (by decide)⟩

/-- A genuinely fresh root `Store` (constructor name `"Store"`). -/
def pureSD : StoreData := ⟨"Store", .rw, 0⟩

/-- A fresh heap whose root is a plain `Store` instance. -/
def pureHeap : Heap :=
  { objs := fun x => if x = 0 then some [] else Option.none,
    stores := fun x => if x = 1 then some pureSD else Option.none,
    next := 2 }

/-- C5: on a fresh root `Store`, `write("outer:store:inner", 7)` creates a
plain-object container at `outer` and a child `Store` instance (constructor
name `"Store"`, `defaultPolicy rw`, fresh empty backing) at `outer:store`,
and `read("outer:store:inner")` returns 7 — while for any other middle
segment name `s ≠ "store"` the same write creates a plain object there and
allocates no `Store` at all (the sentinel-iff).  Beneath `outer:store`,
access is governed by the child's own registry entries (keyed by its class
name `Store`) and its own `defaultPolicy`: with registry
`Store.inner = w` the delegated leaf write succeeds but reading back raises
`PermissionDenied` at the child, and a registry entry for the *parent's*
class (`Root.inner = none`) leaves both the write and the read-back of 7
unaffected. -/
theorem claim_C5_sentinel_substore (g : Nat) (s : String) (hsen : s ≠ "store") :
    ((write [] 40 1 ["outer", "store", "inner"] (.prim (.num 7)) pureHeap).val =
        .ok (.prim (.num 7)) ∧
      ((write [] 40 1 ["outer", "store", "inner"] (.prim (.num 7)) pureHeap).st).objs 0 =
        some [("outer", .obj 2)] ∧
      ((write [] 40 1 ["outer", "store", "inner"] (.prim (.num 7)) pureHeap).st).objs 2 =
        some [("store", .store 4)] ∧
      ((write [] 40 1 ["outer", "store", "inner"] (.prim (.num 7)) pureHeap).st).stores 4 =
        some ⟨"Store", .rw, 3⟩ ∧
      (read [] 40 1 ["outer", "store", "inner"]
        (write [] 40 1 ["outer", "store", "inner"] (.prim (.num 7)) pureHeap).st).val =
        .ok (.prim (.num 7))) ∧
    ((write [] (g + 20) 1 ["outer", s, "inner"] (.prim (.num 7)) pureHeap).val =
        .ok (.prim (.num 7)) ∧
      ((write [] (g + 20) 1 ["outer", s, "inner"] (.prim (.num 7)) pureHeap).st).objs 2 =
        some [(s, .obj 3)] ∧
      (∀ x, ((write [] (g + 20) 1 ["outer", s, "inner"] (.prim (.num 7)) pureHeap).st).stores x =
        pureHeap.stores x) ∧
      (read [] (g + 20) 1 ["outer", s, "inner"]
        (write [] (g + 20) 1 ["outer", s, "inner"] (.prim (.num 7)) pureHeap).st).val =
        .ok (.prim (.num 7))) ∧
    ((write [("Store.inner", .w)] 40 1 ["outer", "store", "inner"] (.prim (.num 7)) baseHeap).val =
        .ok (.prim (.num 7)) ∧
      (read [("Store.inner", .w)] 40 1 ["outer", "store", "inner"]
        (write [("Store.inner", .w)] 40 1 ["outer", "store", "inner"] (.prim (.num 7))
          baseHeap).st).val = .err .permissionDenied ∧
      (write [("Root.inner", .none)] 40 1 ["outer", "store", "inner"] (.prim (.num 7))
        baseHeap).val = .ok (.prim (.num 7)) ∧
      (read [("Root.inner", .none)] 40 1 ["outer", "store", "inner"]
        (write [("Root.inner", .none)] 40 1 ["outer", "store", "inner"] (.prim (.num 7))
          baseHeap).st).val = .ok (.prim (.num 7))) := by
  refine ⟨⟨by decide, by decide, by decide, by decide, by decide⟩, ?_, by decide, by decide, by decide, by decide⟩
  have hwr : write [] (g + 20) 1 ["outer", s, "inner"] (.prim (.num 7)) pureHeap =
      .ok (.prim (.num 7))
        { objs := fun x =>
            if x = 3 then some [("inner", .prim (.num 7))]
            else if x = 2 then some [(s, .obj 3)]
            else if x = 0 then some [("outer", .obj 2)]
            else Option.none,
          stores := fun x => if x = 1 then some pureSD else Option.none,
          next := 4 } := by
    simp [write, getHasPermissionToWriteAt, findStoreToWriteTo, findLoop, read, readVWP,
      getVWRT, writeWithoutPermission, writeValuesUntilLastKey, writeNestedKey,
      writeLastKeyValue, allocObj, allocStore, setObj, updF, lookupA, setA, allowedToRead,
      allowedToWrite, getPermission, permsGet, generateKey, permIncludesR, permIncludesW,
      truthy, callIfIsAFunction, jsTypeofObject, isStoreVal, pureHeap, pureSD, hsen]
    funext x
    by_cases h3 : x = 3 <;> by_cases h2 : x = 2 <;> by_cases h0 : x = 0 <;>
      simp [updF, h3, h2, h0]
  refine ⟨?_, ?_, ?_, ?_⟩
  · rw [hwr]
    rfl
  · rw [hwr]
    simp
  · intro x
    rw [hwr]
    rfl
  · rw [hwr]
    simp [read, readVWP, getVWRT, lookupA, allowedToRead, getPermission, permsGet,
      generateKey, permIncludesR, truthy, callIfIsAFunction, pureSD]

/-- A fresh root plus the object `{x: 1, y: 2}` at address 2. -/
def flatHeap : Heap :=
  { objs := fun x =>
      if x = 0 then some []
      else if x = 2 then some [("x", .prim (.num 1)), ("y", .prim (.num 2))]
      else Option.none,
    stores := fun x => if x = 1 then some rootSD else Option.none,
    next := 3 }

/-- A fresh root plus the object `{f: () => 42}` at address 2. -/
def fnHeap : Heap :=
  { objs := fun x =>
      if x = 0 then some []
      else if x = 2 then some [("f", .fn (.prim (.num 42)))]
      else Option.none,
    stores := fun x => if x = 1 then some rootSD else Option.none,
    next := 3 }

/-- A fresh root plus the nested object `{x: {y: 3}}` at address 2. -/
def nestedHeap : Heap :=
  { objs := fun x =>
      if x = 0 then some []
      else if x = 2 then some [("x", .obj 3)]
      else if x = 3 then some [("y", .prim (.num 3))]
      else Option.none,
    stores := fun x => if x = 1 then some rootSD else Option.none,
    next := 4 }

/-- A fresh root, a child `Store` instance (address 3, backing `{k: 9}` at 2),
and the object `{x: 1, s: <that Store>}` at address 4. -/
def embedHeap : Heap :=
  { objs := fun x =>
      if x = 0 then some []
      else if x = 2 then some [("k", .prim (.num 9))]
      else if x = 4 then some [("x", .prim (.num 1)), ("s", .store 3)]
      else Option.none,
    stores := fun x =>
      if x = 1 then some rootSD
      else if x = 3 then some childSD
      else Option.none,
    next := 5 }

/-- Every pair emitted by `transformEntriesIntoPaths` beyond the incoming
accumulator carries a leaf value: one for which `typeof value === "object"`
fails — producer closures included, which are therefore written as-is. -/
theorem transformFamily_leaves (fuel : Nat) :
    (∀ P v cur acc σ out, (transformEntriesIntoPaths P fuel v cur acc σ).val = .ok out →
      ∀ pv ∈ out, pv ∈ acc ∨ jsTypeofObject pv.2 = false) ∧
    (∀ P flds cur acc σ out, (transformLoop P fuel flds cur acc σ).val = .ok out →
      ∀ pv ∈ out, pv ∈ acc ∨ jsTypeofObject pv.2 = false) := by
  induction fuel with
  | zero =>
    constructor <;> intros P _ cur acc σ out hout <;>
      simp [transformEntriesIntoPaths, transformLoop] at hout
  | succ f ih =>
    obtain ⟨iht, ihl⟩ := ih
    have hl : ∀ P flds cur acc σ out, (transformLoop P (f + 1) flds cur acc σ).val = .ok out →
        ∀ pv ∈ out, pv ∈ acc ∨ jsTypeofObject pv.2 = false := by
      intro P flds cur acc σ out hout pv hpv
      match flds with
      | [] =>
        simp only [transformLoop, Res.val_ok] at hout
        cases hout
        exact Or.inl hpv
      | (k, v) :: rest =>
        simp only [transformLoop] at hout
        by_cases hv : jsTypeofObject v = true
        · rw [if_pos hv] at hout
          cases hrec : transformEntriesIntoPaths P f v (cur ++ [k]) acc σ with
          | err e σ' =>
            rw [hrec] at hout
            simp at hout
          | ok acc' σ' =>
            rw [hrec] at hout
            have hmem := ihl P rest cur acc' σ' out hout pv hpv
            rcases hmem with hacc' | hleaf
            · have := iht P v (cur ++ [k]) acc σ acc' (by rw [hrec]; rfl) pv hacc'
              exact this
            · exact Or.inr hleaf
        · rw [if_neg hv] at hout
          have hmem := ihl P rest cur (acc ++ [(cur ++ [k], v)]) σ out hout pv hpv
          rcases hmem with hacc | hleaf
          · rcases List.mem_append.mp hacc with h | h
            · exact Or.inl h
            · right
              rcases List.mem_singleton.mp h with rfl
              simpa using hv
          · exact Or.inr hleaf
    refine ⟨?_, hl⟩
    intro P v cur acc σ out hout pv hpv
    simp only [transformEntriesIntoPaths] at hout
    exact ihl P (fieldsForIn σ v) cur acc σ out hout pv hpv

/-- C7 (amended): writing a non-empty plain object decomposes into one leaf
write per `typeof`-non-object leaf at its relative path — after
`write("a", {x: 1, y: 2})`, `read("a:x") = 1` and `read("a:y") = 2`; nested
plain objects are recursed into (`write("a", {x: {y: 3}})` then
`read("a:x:y") = 3`); producer closures are `typeof "function"`, hence
leaves written as-is (the created object's field still holds the closure);
and in general every pair the flattening emits carries a value with
`typeof value !== "object"`.  (The original claim's "embedded Store
instances are treated as leaves, written as-is" fails: `typeof` of a `Store`
is `"object"`, so the traversal recurses into its runtime fields — see the
counterexample.) -/
theorem claim_C7_flattening :
    ((write [] 40 1 ["a"] (.obj 2) flatHeap).val = .ok (.obj 2) ∧
      (read [] 40 1 ["a", "x"] (write [] 40 1 ["a"] (.obj 2) flatHeap).st).val =
        .ok (.prim (.num 1)) ∧
      (read [] 40 1 ["a", "y"] (write [] 40 1 ["a"] (.obj 2) flatHeap).st).val =
        .ok (.prim (.num 2))) ∧
    (read [] 40 1 ["a", "x", "y"] (write [] 40 1 ["a"] (.obj 2) nestedHeap).st).val =
      .ok (.prim (.num 3)) ∧
    (((write [] 40 1 ["b"] (.obj 2) fnHeap).st).objs 0 = some [("b", .obj 3)] ∧
      ((write [] 40 1 ["b"] (.obj 2) fnHeap).st).objs 3 =
        some [("f", .fn (.prim (.num 42)))]) ∧
    (∀ P fuel v cur acc σ out, (transformEntriesIntoPaths P fuel v cur acc σ).val = .ok out →
      ∀ pv ∈ out, pv ∈ acc ∨ jsTypeofObject pv.2 = false) :=
  ⟨⟨by decide, by decide, by decide⟩, by decide, ⟨by decide, by decide⟩,
    fun P fuel v cur acc σ out hout pv hpv =>
      (transformFamily_leaves fuel).1 P v cur acc σ out hout pv hpv⟩

/-- C7, failing part of the original claim: writing `{x: 1, s: <Store>}`
does not store the embedded `Store` as-is — `typeof` recursion flattens its
runtime fields (`store`, `defaultPolicy`), so `a:s` reads back as a fresh
plain object, `a:s:defaultPolicy` is the copied permission string and
`a:s:store:k` the copied backing content. -/
theorem claim_C7_counterexample :
    (write [] 40 1 ["a"] (.obj 4) embedHeap).val = .ok (.obj 4) ∧
    (read [] 40 1 ["a", "s"] (write [] 40 1 ["a"] (.obj 4) embedHeap).st).val = .ok (.obj 6) ∧
    isStoreVal (.obj 6) = false ∧
    (read [] 40 1 ["a", "s", "defaultPolicy"] (write [] 40 1 ["a"] (.obj 4) embedHeap).st).val =
      .ok (.prim (.str "rw")) ∧
    (read [] 40 1 ["a", "s", "store", "k"] (write [] 40 1 ["a"] (.obj 4) embedHeap).st).val =
      .ok (.prim (.num 9)) := by
  decide

/-- Witness for C7: a concrete flattening run emits the producer pair as a
leaf, and the general component of the claim applies to it. -/
theorem claim_C7_flattening_witness :
    ((transformEntriesIntoPaths [] 10 (.obj 2) [] [] fnHeap).val =
      .ok [(["f"], .fn (.prim (.num 42)))]) ∧
    ((["f"], Val.fn (.prim (.num 42))) ∈ ([] : List (List String × Val)) ∨
      jsTypeofObject (Val.fn (.prim (.num 42))) = false) :=
  ⟨by decide,
    claim_C7_flattening.2.2.2 [] 10 (.obj 2) [] [] fnHeap [(["f"], .fn (.prim (.num 42)))]
      (by decide) (["f"], .fn (.prim (.num 42))) (by decide)⟩

/-- `typeof v === "function"`. -/
def isFn : Val → Bool
  | .fn _ => true
  | _ => false

/-- Producer invocation never yields a callable: the TypeScript producer type
is `() => StoreResult` and `StoreResult` contains no function type. -/
theorem callIfIsAFunction_not_fn (v : Val) : isFn (callIfIsAFunction v) = false := by
  match v with
  | .fn (.prim p) => rfl
  | .fn (.storeRef a) => rfl
  | .fn .undef => rfl
  | .prim p => rfl
  | .obj a => rfl
  | .store a => rfl
  | .undef => rfl

/-- No member of the read family ever returns a callable: every value is
passed through `callIfIsAFunction` before being returned or walked. -/
theorem readFamily_no_fn (fuel : Nat) :
    (∀ P sa keys σ v, (read P fuel sa keys σ).val = .ok v → isFn v = false) ∧
    (∀ P sa keys σ v, (readVWP P fuel sa keys σ).val = .ok v → isFn v = false) ∧
    (∀ P sa keys cv σ v, isFn cv = false → (getVWRT P fuel sa keys cv σ).val = .ok v →
      isFn v = false) := by
  induction fuel with
  | zero =>
    refine ⟨?_, ?_, ?_⟩ <;> intros <;> simp_all [read, readVWP, getVWRT]
  | succ f ih =>
    obtain ⟨ihr, ihv, ihg⟩ := ih
    have hg : ∀ P sa keys cv σ v, isFn cv = false →
        (getVWRT P (f + 1) sa keys cv σ).val = .ok v → isFn v = false := by
      intro P sa keys cv σ v hcv hok
      match keys with
      | [] =>
        simp only [getVWRT, Res.val_ok] at hok
        cases hok
        exact hcv
      | k :: rest =>
        match cv with
        | .store s =>
          simp only [getVWRT, truthy, ite_true] at hok
          cases hread : read P f s [k] σ with
          | ok w σ' =>
            rw [hread] at hok
            exact ihg P sa rest _ σ' v (callIfIsAFunction_not_fn w) hok
          | err e σ' =>
            rw [hread] at hok
            simp at hok
        | .obj a =>
          simp only [getVWRT, truthy, ite_true] at hok
          cases hobj : σ.objs a with
          | none =>
            rw [hobj] at hok
            simp at hok
          | some flds =>
            rw [hobj] at hok
            exact ihg P sa rest _ σ v (callIfIsAFunction_not_fn _) hok
        | .fn r =>
          simp only [getVWRT, truthy, ite_true] at hok
          exact ihg P sa rest _ σ v (callIfIsAFunction_not_fn _) hok
        | .undef =>
          simp only [getVWRT, truthy, ite_false, Res.val_ok] at hok
          cases hok
          rfl
        | .prim p =>
          simp only [getVWRT] at hok
          split at hok
          · exact ihg P sa rest _ σ v (callIfIsAFunction_not_fn _) hok
          · simp only [Res.val_ok] at hok
            cases hok
            rfl
    have hv : ∀ P sa keys σ v, (readVWP P (f + 1) sa keys σ).val = .ok v → isFn v = false := by
      intro P sa keys σ v hok
      match hstores : σ.stores sa with
      | Option.none => simp [readVWP, hstores] at hok
      | some sd =>
        match hb : σ.objs sd.backing with
        | Option.none => simp [readVWP, hstores, hb] at hok
        | some flds =>
          match keys with
          | [] => simp [readVWP, hstores, hb] at hok
          | k0 :: rest =>
            simp only [readVWP, hstores, hb] at hok
            exact ihg P sa rest _ σ v (callIfIsAFunction_not_fn _) hok
    have hr : ∀ P sa keys σ v, (read P (f + 1) sa keys σ).val = .ok v → isFn v = false := by
      intro P sa keys σ v hok
      match hstores : σ.stores sa with
      | Option.none => simp [read, hstores] at hok
      | some sd =>
        match keys with
        | [] => simp [read, hstores] at hok
        | k0 :: rest =>
          simp only [read, hstores] at hok
          by_cases hAllowed : allowedToRead P sd k0 = true
          · rw [if_pos hAllowed] at hok
            exact ihv P sa (k0 :: rest) σ v hok
          · rw [if_neg hAllowed] at hok
            simp at hok
    exact ⟨hr, hv, hg⟩

/-- A fresh root whose key `fn` holds the producer `() => 42`. -/
def lazyHeap : Heap :=
  { objs := fun x => if x = 0 then some [("fn", .fn (.prim (.num 42)))] else Option.none,
    stores := fun x => if x = 1 then some rootSD else Option.none,
    next := 2 }

/-- A fresh root whose key `f` holds a producer returning a child `Store`
(address 3, backing `{b: 7}`): a producer at an intermediate path segment. -/
def fnStoreHeap : Heap :=
  { objs := fun x =>
      if x = 0 then some [("f", .fn (.storeRef 3))]
      else if x = 2 then some [("b", .prim (.num 7))]
      else Option.none,
    stores := fun x =>
      if x = 1 then some rootSD
      else if x = 3 then some childSD
      else Option.none,
    next := 4 }

/-- C4: `read` never returns a callable — every successful read yields a
non-function value, whatever the state and path; a single-segment read of a
stored producer invokes it and returns its result; and a producer
encountered at an intermediate segment is invoked and the traversal
continues through its result (here a producer yielding a child `Store`,
through which `read("f:b")` reaches 7). -/
theorem claim_C4_lazy_materialization (P : Perms) (fuel g sa : Nat) (keys : List String)
    (k : String) (σ : Heap) (sd : StoreData) (flds : List (String × Val)) (r : FnRet) (v : Val) :
    ((read P fuel sa keys σ).val = .ok v → isFn v = false) ∧
    (σ.stores sa = some sd → σ.objs sd.backing = some flds → lookupA flds k = some (.fn r) →
      allowedToRead P sd k = true → (read P (g + 3) sa [k] σ).val = .ok r.toVal) ∧
    (read [] 10 1 ["f", "b"] fnStoreHeap).val = .ok (.prim (.num 7)) := by
  refine ⟨fun hok => (readFamily_no_fn fuel).1 P sa keys σ v hok, ?_, by decide⟩
  intro hs hb hfn hr
  rw [read_singleKey P g sa k σ sd flds hs hb, if_pos hr, hfn]
  rfl

/-- Witness for C4: on the producer fixture, `read("fn")` returns 42 (not a
callable), discharging both hypothesis-bearing components concretely. -/
theorem claim_C4_lazy_materialization_witness :
    ((read [] 10 1 ["fn"] lazyHeap).val = .ok (.prim (.num 42)) ∧
      lazyHeap.stores 1 = some rootSD ∧
      lazyHeap.objs rootSD.backing = some [("fn", .fn (.prim (.num 42)))] ∧
      lookupA [("fn", .fn (.prim (.num 42)))] "fn" = some (.fn (.prim (.num 42))) ∧
      allowedToRead [] rootSD "fn" = true) ∧
    isFn (.prim (.num 42)) = false ∧
    (read [] 10 1 ["fn"] lazyHeap).val = .ok (FnRet.prim (Prim.num 42)).toVal :=
  ⟨⟨by decide, by decide, by decide, by decide, by decide⟩,
    (claim_C4_lazy_materialization [] 10 7 1 ["fn"] "fn" lazyHeap rootSD
      [("fn", .fn (.prim (.num 42)))] (.prim (.num 42)) (.prim (.num 42))).1 (by decide),
    (claim_C4_lazy_materialization [] 10 7 1 ["fn"] "fn" lazyHeap rootSD
      [("fn", .fn (.prim (.num 42)))] (.prim (.num 42)) (.prim (.num 42))).2.1
      (by decide) (by decide) (by decide) (by decide)⟩

/-! ## Fuel monotonicity of the read family

Fuel is an artifact of the embedding: once a run finishes without exhausting
it, any larger fuel produces the identical outcome. -/

theorem readFamily_mono (fuel : Nat) : ∀ fuel', fuel ≤ fuel' →
    (∀ P sa keys σ, (read P fuel sa keys σ).val ≠ .err .fuelOut →
      read P fuel' sa keys σ = read P fuel sa keys σ) ∧
    (∀ P sa keys σ, (readVWP P fuel sa keys σ).val ≠ .err .fuelOut →
      readVWP P fuel' sa keys σ = readVWP P fuel sa keys σ) ∧
    (∀ P sa keys cv σ, (getVWRT P fuel sa keys cv σ).val ≠ .err .fuelOut →
      getVWRT P fuel' sa keys cv σ = getVWRT P fuel sa keys cv σ) := by
  induction fuel with
  | zero =>
    intro fuel' _
    refine ⟨?_, ?_, ?_⟩ <;> intros <;> simp_all [read, readVWP, getVWRT]
  | succ f ih =>
    intro fuel' hle
    match fuel' with
    | 0 => omega
    | f' + 1 =>
      have hle' : f ≤ f' := by omega
      obtain ⟨ihr, ihv, ihg⟩ := ih f' hle'
      have hg : ∀ P sa keys cv σ, (getVWRT P (f + 1) sa keys cv σ).val ≠ .err .fuelOut →
          getVWRT P (f' + 1) sa keys cv σ = getVWRT P (f + 1) sa keys cv σ := by
        intro P sa keys cv σ hnf
        match keys with
        | [] => simp [getVWRT]
        | k :: rest =>
          match cv with
          | .store s =>
            simp only [getVWRT, truthy, ite_true] at hnf ⊢
            cases hread : read P f s [k] σ with
            | ok w σ' =>
              rw [hread] at hnf
              rw [ihr P s [k] σ (by rw [hread]; simp), hread]
              exact ihg P sa rest _ σ' hnf
            | err e σ' =>
              rw [hread] at hnf
              have hne : e ≠ .fuelOut := by
                intro he
                rw [he] at hnf
                simp at hnf
              rw [ihr P s [k] σ (by rw [hread]; simpa using hne), hread]
          | .obj a =>
            simp only [getVWRT, truthy, ite_true] at hnf ⊢
            cases hobj : σ.objs a with
            | none => rfl
            | some flds =>
              rw [hobj] at hnf
              exact ihg P sa rest _ σ hnf
          | .fn r =>
            simp only [getVWRT, truthy, ite_true] at hnf ⊢
            exact ihg P sa rest _ σ hnf
          | .undef => simp [getVWRT, truthy]
          | .prim p =>
            simp only [getVWRT] at hnf ⊢
            by_cases ht : truthy (.prim p) = true
            · simp only [if_pos ht] at hnf ⊢
              exact ihg P sa rest _ σ hnf
            · simp only [if_neg ht] at hnf ⊢
      have hv : ∀ P sa keys σ, (readVWP P (f + 1) sa keys σ).val ≠ .err .fuelOut →
          readVWP P (f' + 1) sa keys σ = readVWP P (f + 1) sa keys σ := by
        intro P sa keys σ hnf
        match hstores : σ.stores sa with
        | Option.none => simp [readVWP, hstores]
        | some sd =>
          match hb : σ.objs sd.backing with
          | Option.none => simp [readVWP, hstores, hb]
          | some flds =>
            match keys with
            | [] => simp [readVWP, hstores, hb]
            | k0 :: rest =>
              simp only [readVWP, hstores, hb] at hnf ⊢
              exact ihg P sa rest _ σ hnf
      have hr : ∀ P sa keys σ, (read P (f + 1) sa keys σ).val ≠ .err .fuelOut →
          read P (f' + 1) sa keys σ = read P (f + 1) sa keys σ := by
        intro P sa keys σ hnf
        match hstores : σ.stores sa with
        | Option.none => simp [read, hstores]
        | some sd =>
          match keys with
          | [] => simp [read, hstores]
          | k0 :: rest =>
            simp only [read, hstores] at hnf ⊢
            by_cases hAllowed : allowedToRead P sd k0 = true
            · simp only [if_pos hAllowed] at hnf ⊢
              exact ihv P sa (k0 :: rest) σ hnf
            · simp only [if_neg hAllowed]
      exact ⟨hr, hv, hg⟩

/-- The remaining-segment loop splits along list append: walking
`ks1 ++ ks2` is walking `ks1`, then walking `ks2` from the value reached,
with one unit of fuel consumed per segment. -/
theorem getVWRT_append (P : Perms) (sa : Nat) (ks2 : List String) :
    ∀ (ks1 : List String) (f : Nat) (cv : Val) (σ : Heap), ks1.length < f →
    getVWRT P f sa (ks1 ++ ks2) cv σ =
      match getVWRT P f sa ks1 cv σ with
      | .ok v σ' => getVWRT P (f - ks1.length) sa ks2 v σ'
      | .err e σ' => .err e σ' := by
  intro ks1
  induction ks1 with
  | nil =>
    intro f cv σ hlen
    match f, hlen with
    | f + 1, _ => simp [getVWRT]
  | cons k t iht =>
    intro f cv σ hlen
    match f, hlen with
    | f + 1, hlen =>
      have hlt : t.length < f := by
        have := hlen
        simp only [List.length_cons] at this
        omega
      have hfe : f + 1 - (k :: t).length = f - t.length := by
        simp only [List.length_cons]
        omega
      rw [hfe]
      match cv with
      | .store s =>
        simp only [List.cons_append, getVWRT, truthy, ite_true]
        cases hread : read P f s [k] σ with
        | ok w σ' => simp only [iht f (callIfIsAFunction w) σ' hlt]
        | err e σ' => rfl
      | .obj a =>
        simp only [List.cons_append, getVWRT, truthy, ite_true]
        cases hobj : σ.objs a with
        | none => rfl
        | some flds => simp only [iht f (callIfIsAFunction ((lookupA flds k).getD .undef)) σ hlt]
      | .fn r =>
        simp only [List.cons_append, getVWRT, truthy, ite_true]
        simp only [iht f (callIfIsAFunction (.fn r)) σ hlt]
      | .undef =>
        simp only [List.cons_append, getVWRT, truthy, Bool.false_eq_true, if_false]
        obtain ⟨m, hm⟩ : ∃ m, f - t.length = m + 1 := ⟨f - t.length - 1, by omega⟩
        rw [hm, getVWRT_undef]
      | .prim p =>
        by_cases ht : truthy (.prim p) = true
        · simp only [List.cons_append, getVWRT, if_pos ht]
          simp only [iht f (callIfIsAFunction (.prim p)) σ hlt]
        · simp only [List.cons_append, getVWRT, if_neg ht]
          obtain ⟨m, hm⟩ : ∃ m, f - t.length = m + 1 := ⟨f - t.length - 1, by omega⟩
          rw [hm, getVWRT_undef]

/-- A run of the remaining-segment loop that ends in a value other than
`undefined` walked every segment, consuming fuel strictly beyond the list
length. -/
theorem getVWRT_ok_fuel_bound (fuel : Nat) :
    ∀ P sa keys cv σ w, (getVWRT P fuel sa keys cv σ).val = .ok w → w ≠ .undef →
      keys.length < fuel := by
  induction fuel with
  | zero => intros P sa keys cv σ w h; simp [getVWRT] at h
  | succ f ih =>
    intro P sa keys cv σ w hok hw
    match keys with
    | [] => simp
    | k :: rest =>
      match cv with
      | .store s =>
        simp only [getVWRT, truthy, ite_true] at hok
        cases hread : read P f s [k] σ with
        | ok v σ' =>
          rw [hread] at hok
          have := ih P sa rest _ σ' w hok hw
          simpa using Nat.succ_lt_succ this
        | err e σ' =>
          rw [hread] at hok
          simp at hok
      | .obj a =>
        simp only [getVWRT, truthy, ite_true] at hok
        cases hobj : σ.objs a with
        | none =>
          rw [hobj] at hok
          simp at hok
        | some flds =>
          rw [hobj] at hok
          have := ih P sa rest _ σ w hok hw
          simpa using Nat.succ_lt_succ this
      | .fn r =>
        simp only [getVWRT, truthy, ite_true] at hok
        have := ih P sa rest _ σ w hok hw
        simpa using Nat.succ_lt_succ this
      | .undef =>
        simp only [getVWRT, truthy, ite_false, Res.val_ok] at hok
        cases hok
        exact absurd rfl hw
      | .prim p =>
        simp only [getVWRT] at hok
        split at hok
        · have := ih P sa rest _ σ w hok hw
          simpa using Nat.succ_lt_succ this
        · simp only [Res.val_ok] at hok
          cases hok
          exact absurd rfl hw

/-- Walking extra segments from a truthy primitive leaves it unchanged: it is
neither a `Store` nor an object, so each step keeps the current value. -/
theorem getVWRT_truthy_prim (P : Perms) (sa : Nat) (p : Prim) (ht : truthy (.prim p) = true) :
    ∀ (ks : List String) (f : Nat) (σ : Heap), ks.length < f →
      getVWRT P f sa ks (.prim p) σ = .ok (.prim p) σ := by
  intro ks
  induction ks with
  | nil =>
    intro f σ hlen
    match f, hlen with
    | f + 1, _ => simp [getVWRT]
  | cons k t iht =>
    intro f σ hlen
    match f, hlen with
    | f + 1, hlen =>
      simp only [getVWRT, if_pos ht]
      exact iht f σ (by simp only [List.length_cons] at hlen; omega)

/-- Walking one or more extra segments from a falsy value returns
`undefined` at once. -/
theorem getVWRT_falsy (P : Perms) (g sa : Nat) (cv : Val) (hf : truthy cv = false)
    (k : String) (rest : List String) (σ : Heap) :
    getVWRT P (g + 1) sa (k :: rest) cv σ = .ok .undef σ := by
  simp [getVWRT, hf]

/-- A fresh root with a truthy scalar at `a` and a falsy scalar (0) at `z`. -/
def scalarHeap : Heap :=
  { objs := fun x =>
      if x = 0 then some [("a", .prim (.num 5)), ("z", .prim (.num 0))] else Option.none,
    stores := fun x => if x = 1 then some rootSD else Option.none,
    next := 2 }

/-- C10: if a permitted path `P` reads as a truthy scalar, then reading any
strictly longer path `P:extra` returns that same scalar (each extra segment
leaves a non-`Store`, non-object value unchanged); if the scalar at `P` is
falsy (`0`, `""`, `false`, `null`), the extended read returns `undefined`
(the `!currentValue` early return). -/
theorem claim_C10_read_past_scalar (P : Perms) (f sa : Nat) (p extra : List String) (v : Prim)
    (σ : Heap) (hread : (read P f sa p σ).val = .ok (.prim v)) (hextra : extra ≠ []) :
    (truthy (.prim v) = true →
      (read P (f + extra.length) sa (p ++ extra) σ).val = .ok (.prim v)) ∧
    (truthy (.prim v) = false →
      (read P (f + extra.length) sa (p ++ extra) σ).val = .ok .undef) := by
  match f with
  | 0 => simp [read] at hread
  | f + 1 =>
    match hstores : σ.stores sa with
    | Option.none => simp [read, hstores] at hread
    | some sd =>
      match p with
      | [] => simp [read, hstores] at hread
      | k0 :: rest =>
        simp only [read, hstores] at hread
        by_cases hAllowed : allowedToRead P sd k0 = true
        case neg =>
          rw [if_neg hAllowed] at hread
          simp at hread
        case pos =>
          rw [if_pos hAllowed] at hread
          match f with
          | 0 => simp [readVWP] at hread
          | f + 1 =>
            match hb : σ.objs sd.backing with
            | Option.none => simp [readVWP, hstores, hb] at hread
            | some flds =>
              simp only [readVWP, hstores, hb] at hread
              have hbound : rest.length < f :=
                getVWRT_ok_fuel_bound f P sa rest _ σ _ hread (by intro h; cases h)
              have hnf : (getVWRT P f sa rest
                  (callIfIsAFunction ((lookupA flds k0).getD .undef)) σ).val ≠
                  .err .fuelOut := by
                rw [hread]
                simp
              have hres : getVWRT P f sa rest
                  (callIfIsAFunction ((lookupA flds k0).getD .undef)) σ = .ok (.prim v) σ := by
                have hst := getVWRT_st P f sa rest
                  (callIfIsAFunction ((lookupA flds k0).getD .undef)) σ
                cases hcase : getVWRT P f sa rest
                    (callIfIsAFunction ((lookupA flds k0).getD .undef)) σ with
                | ok w σ' =>
                  rw [hcase] at hread hst
                  simp only [Res.val_ok, Res.st_ok] at hread hst
                  cases hread
                  rw [hst]
                | err e σ' =>
                  rw [hcase] at hread
                  simp at hread
              have hmono := (readFamily_mono f (f + extra.length) (by omega)).2.2 P sa rest
                (callIfIsAFunction ((lookupA flds k0).getD .undef)) σ hnf
              have hunf : ∀ w : Val,
                  (read P (f + 1 + 1 + extra.length) sa (k0 :: (rest ++ extra)) σ).val =
                    (getVWRT P (f + extra.length) sa (rest ++ extra)
                      (callIfIsAFunction ((lookupA flds k0).getD .undef)) σ).val := by
                intro w
                have h1 : f + 1 + 1 + extra.length = (f + 1 + extra.length) + 1 := by omega
                have h2 : f + 1 + extra.length = (f + extra.length) + 1 := by omega
                rw [h1]
                simp only [read, hstores, if_pos hAllowed]
                rw [h2]
                simp only [readVWP, hstores, hb]
              have happ := getVWRT_append P sa extra rest (f + extra.length)
                (callIfIsAFunction ((lookupA flds k0).getD .undef)) σ (by omega)
              rw [hmono, hres] at happ
              have hcont : (read P (f + 1 + 1 + extra.length) sa (k0 :: (rest ++ extra)) σ).val =
                  (getVWRT P (f + extra.length - rest.length) sa extra (.prim v) σ).val := by
                rw [hunf .undef, happ]
              have hm : extra.length < f + extra.length - rest.length := by omega
              constructor
              · intro ht
                have := getVWRT_truthy_prim P sa v ht extra
                  (f + extra.length - rest.length) σ hm
                show (read P (f + 1 + 1 + extra.length) sa (k0 :: (rest ++ extra)) σ).val = _
                rw [hcont, this]
                rfl
              · intro ht
                match extra, hextra with
                | e :: t, _ =>
                  obtain ⟨m, hm2⟩ : ∃ m, f + (e :: t).length - rest.length = m + 1 :=
                    ⟨f + (e :: t).length - rest.length - 1, by omega⟩
                  show (read P (f + 1 + 1 + (e :: t).length) sa (k0 :: (rest ++ e :: t)) σ).val = _
                  rw [hcont, hm2, getVWRT_falsy P m sa (.prim v) ht e t σ]
                  rfl

/-- Witness for C10: `a` holds the truthy scalar 5, so `read("a:b:c")`
returns 5; `z` holds the falsy scalar 0, so `read("z:b")` returns
`undefined`. -/
theorem claim_C10_read_past_scalar_witness :
    ((read [] 10 1 ["a"] scalarHeap).val = .ok (.prim (.num 5)) ∧
      (["b", "c"] : List String) ≠ [] ∧ truthy (.prim (.num 5)) = true ∧
      (read [] 10 1 ["z"] scalarHeap).val = .ok (.prim (.num 0)) ∧
      truthy (.prim (.num 0)) = false) ∧
    (read [] 12 1 ["a", "b", "c"] scalarHeap).val = .ok (.prim (.num 5)) ∧
    (read [] 11 1 ["z", "b"] scalarHeap).val = .ok .undef :=
  ⟨⟨by decide, by decide, by decide, by decide, by decide⟩,
    (claim_C10_read_past_scalar [] 10 1 ["a"] ["b", "c"] (.num 5) scalarHeap
      (by decide) (by decide)).1 (by decide),
    (claim_C10_read_past_scalar [] 10 1 ["z"] ["b"] (.num 0) scalarHeap
      (by decide) (by decide)).2 (by decide)⟩

/-! ## Chains of freshly created containers

The mutation phase of `write` on a permissive store walks the path creating
one container per missing intermediate segment: a plain `{}` object, or a
child `Store` when the segment is the sentinel `"store"`.  `Cont` describes
one such container, `ChainOk` the walk from the root backing object to the
current container, with strictly increasing heap addresses (every container
is allocated after everything it hangs from), which is what makes the
in-place mutations of the loop leave the already-built part of the chain
intact. -/

/-- A container the write loop can be standing on: a plain object, or a
child `Store` (instance address, backing address). -/
inductive Cont where
  | co (a : Nat)
  | cs (s : Nat) (b : Nat)
deriving DecidableEq, Repr

/-- The value denoting the container. -/
def contVal : Cont → Val
  | .co a => .obj a
  | .cs s _ => .store s

/-- The address whose object fields hold the container's entries. -/
def contObjAddr : Cont → Nat
  | .co a => a
  | .cs _ b => b

/-- All heap addresses belonging to the container. -/
def contAddrs : Cont → List Nat
  | .co a => [a]
  | .cs s b => [s, b]

/-- The container's entry list in a heap. -/
def contFields (σ : Heap) (c : Cont) : List (String × Val) :=
  (σ.objs (contObjAddr c)).getD []

/-- The container is materialized in the heap; a store container is a plain
`new Store()` (class `"Store"`, policy `rw`) with its backing present. -/
def contOk (σ : Heap) : Cont → Prop
  | .co a => ∃ flds, σ.objs a = some flds
  | .cs s b => σ.stores s = some ⟨"Store", .rw, b⟩ ∧ ∃ flds, σ.objs b = some flds

/-- Traversing `p` from container `c` reaches container `c'`, each hop a
present field holding the next container, containers materialized, and
addresses strictly increasing along the chain. -/
def ChainOk (σ : Heap) : Cont → List String → Cont → Prop
  | c, [], c' => c = c'
  | c, k :: t, c' => ∃ m, lookupA (contFields σ c) k = some (contVal m) ∧ contOk σ m ∧
      (∀ x ∈ contAddrs c, ∀ y ∈ contAddrs m, x < y) ∧ ChainOk σ m t c'

/-- Along a non-empty chain, every address of the head is below every address
of the last container. -/
theorem ChainOk_lt (σ : Heap) : ∀ (p : List String) (c c' : Cont), ChainOk σ c p c' → p ≠ [] →
    ∀ x ∈ contAddrs c, ∀ y ∈ contAddrs c', x < y := by
  intro p
  induction p with
  | nil => intro c c' _ hne; exact absurd rfl hne
  | cons k t ih =>
    intro c c' hC _
    obtain ⟨m, _, _, hlt, htail⟩ := hC
    match t with
    | [] =>
      cases htail
      exact hlt
    | k' :: t' =>
      intro x hx y hy
      have hm : ∃ z, z ∈ contAddrs m := by
        match m with
        | .co a => exact ⟨a, by simp [contAddrs]⟩
        | .cs s b => exact ⟨s, by simp [contAddrs]⟩
      obtain ⟨z, hz⟩ := hm
      exact lt_trans (hlt x hx z hz) (ih m c' htail (by simp) z hz y hy)

/-- A chain survives any heap modification that (a) leaves every address
strictly below all of the last container's addresses untouched and (b) keeps
the last container materialized. -/
theorem ChainOk_frame (σ σ' : Heap) :
    ∀ (p : List String) (c c' : Cont), ChainOk σ c p c' →
    (∀ x, (∀ y ∈ contAddrs c', x < y) → σ'.objs x = σ.objs x ∧ σ'.stores x = σ.stores x) →
    contOk σ' c' →
    ChainOk σ' c p c' := by
  intro p
  induction p with
  | nil =>
    intro c c' hC _ _
    exact hC
  | cons k t ih =>
    intro c c' hC hagree hlast
    obtain ⟨m, hlook, hok, hlt, htail⟩ := hC
    have hcbelow : ∀ x ∈ contAddrs c, ∀ y ∈ contAddrs c', x < y := by
      match t with
      | [] =>
        cases htail
        exact hlt
      | k' :: t' =>
        intro x hx y hy
        have hm : ∃ z, z ∈ contAddrs m := by
          match m with
          | .co a => exact ⟨a, by simp [contAddrs]⟩
          | .cs s b => exact ⟨s, by simp [contAddrs]⟩
        obtain ⟨z, hz⟩ := hm
        exact lt_trans (hlt x hx z hz) (ChainOk_lt σ (k' :: t') m c' htail (by simp) z hz y hy)
    have hfields : contFields σ' c = contFields σ c := by
      unfold contFields
      have : σ'.objs (contObjAddr c) = σ.objs (contObjAddr c) := by
        refine (hagree (contObjAddr c) ?_).1
        intro y hy
        refine hcbelow (contObjAddr c) ?_ y hy
        match c with
        | .co a => simp [contAddrs, contObjAddr]
        | .cs s b => simp [contAddrs, contObjAddr]
      rw [this]
    have hmok : contOk σ' m := by
      match t with
      | [] =>
        cases htail
        exact hlast
      | k' :: t' =>
        have hmbelow : ∀ x ∈ contAddrs m, ∀ y ∈ contAddrs c', x < y :=
          ChainOk_lt σ (k' :: t') m c' htail (by simp)
        match m, hok with
        | .co a, ⟨flds, hflds⟩ =>
          refine ⟨flds, ?_⟩
          rw [(hagree a fun y hy => hmbelow a (by simp [contAddrs]) y hy).1]
          exact hflds
        | .cs s b, ⟨hsd, flds, hflds⟩ =>
          refine ⟨?_, flds, ?_⟩
          · rw [(hagree s fun y hy => hmbelow s (by simp [contAddrs]) y hy).2]
            exact hsd
          · rw [(hagree b fun y hy => hmbelow b (by simp [contAddrs]) y hy).1]
            exact hflds
    exact ⟨m, by rw [hfields]; exact hlook, hmok, hlt, ih m c' htail hagree hlast⟩

/-- Extending a chain by one present hop. -/
theorem ChainOk_snoc (σ : Heap) :
    ∀ (p : List String) (c c' m : Cont) (k : String), ChainOk σ c p c' →
    lookupA (contFields σ c') k = some (contVal m) → contOk σ m →
    (∀ x ∈ contAddrs c', ∀ y ∈ contAddrs m, x < y) →
    ChainOk σ c (p ++ [k]) m := by
  intro p
  induction p with
  | nil =>
    intro c c' m k hC hlook hok hlt
    cases hC
    exact ⟨m, hlook, hok, hlt, rfl⟩
  | cons k0 t ih =>
    intro c c' m k hC hlook hok hlt
    obtain ⟨m0, hl0, hok0, hlt0, htail⟩ := hC
    exact ⟨m0, hl0, hok0, hlt0, ih m0 c' m k htail hlook hok hlt⟩

/-- `take (i+1)` is `take i` plus the `i`-th element. -/
theorem take_succ_getD : ∀ (ks : List String) (i : Nat), i < ks.length →
    ks.take (i + 1) = ks.take i ++ [ks.getD i ""] := by
  intro ks
  induction ks with
  | nil => intro i h; simp at h
  | cons k t ih =>
    intro i h
    match i with
    | 0 => simp
    | i + 1 =>
      simp only [List.take_succ_cons, List.getD_cons_succ, List.cons_append]
      rw [ih i (by simpa using h)]

/-- `callIfIsAFunction` is idempotent: producers cannot return producers. -/
theorem callIfIsAFunction_idem (v : Val) :
    callIfIsAFunction (callIfIsAFunction v) = callIfIsAFunction v := by
  match v with
  | .fn (.prim p) => rfl
  | .fn (.storeRef a) => rfl
  | .fn .undef => rfl
  | .prim p => rfl
  | .obj a => rfl
  | .store a => rfl
  | .undef => rfl

/-- A container value is not a producer. -/
theorem callIfIsAFunction_contVal (c : Cont) : callIfIsAFunction (contVal c) = contVal c := by
  match c with
  | .co a => rfl
  | .cs s b => rfl

/-- A container value is truthy. -/
theorem truthy_contVal (c : Cont) : truthy (contVal c) = true := by
  match c with
  | .co a => rfl
  | .cs s b => rfl

/-- Under the empty registry, every key of a policy-`rw` store is readable
and writable. -/
theorem allowed_empty_rw (sd : StoreData) (hpol : sd.defaultPolicy = .rw) (k : String) :
    allowedToRead [] sd k = true ∧ allowedToWrite [] sd k = true := by
  simp [allowedToRead, allowedToWrite, getPermission, permsGet, hpol, permIncludesR,
    permIncludesW]

/-- The last container of a chain is materialized. -/
theorem ChainOk_last_ok (σ : Heap) : ∀ (p : List String) (c c' : Cont),
    ChainOk σ c p c' → contOk σ c → contOk σ c' := by
  intro p
  induction p with
  | nil =>
    intro c c' hC hok
    cases hC
    exact hok
  | cons k t ih =>
    intro c c' hC _
    obtain ⟨m, _, hokm, _, htail⟩ := hC
    exact ih m c' htail hokm

/-- One segment from a materialized container: the looked-up entry,
producer-materialized. -/
theorem getVWRT_single (g sa : Nat) (k : String) (c : Cont) (σ : Heap) (hok : contOk σ c) :
    getVWRT [] (g + 4) sa [k] (contVal c) σ =
      .ok (callIfIsAFunction ((lookupA (contFields σ c) k).getD .undef)) σ := by
  match c, hok with
  | .co a, ⟨flds, hflds⟩ =>
    simp only [getVWRT, contVal, truthy, ite_true, hflds]
    have : contFields σ (.co a) = flds := by simp [contFields, contObjAddr, hflds]
    rw [this]
  | .cs s b, ⟨hsd, flds, hflds⟩ =>
    simp only [getVWRT, contVal, truthy, ite_true]
    rw [read_singleKey [] g s k σ _ flds hsd hflds,
      if_pos (allowed_empty_rw _ rfl k).1]
    have : contFields σ (.cs s b) = flds := by simp [contFields, contObjAddr, hflds]
    rw [this]
    simp only [getVWRT, callIfIsAFunction_idem]

/-- Walking a chain from its head container reaches its last container. -/
theorem chain_getVWRT (sa : Nat) : ∀ (p : List String) (c c' : Cont) (σ : Heap) (f : Nat),
    ChainOk σ c p c' → contOk σ c → p.length + 4 ≤ f →
    getVWRT [] f sa p (contVal c) σ = .ok (contVal c') σ := by
  intro p
  induction p with
  | nil =>
    intro c c' σ f hC _ hf
    cases hC
    obtain ⟨f', rfl⟩ : ∃ f', f = f' + 1 := ⟨f - 1, by omega⟩
    simp [getVWRT]
  | cons k t ih =>
    intro c c' σ f hC hok hf
    obtain ⟨m, hlook, hokm, _, htail⟩ := hC
    obtain ⟨f', rfl⟩ : ∃ f', f = f' + 1 := ⟨f - 1, by omega⟩
    have hf' : t.length + 4 ≤ f' := by
      simp only [List.length_cons] at hf
      omega
    match c, hok with
    | .co a, ⟨flds, hflds⟩ =>
      simp only [getVWRT, contVal, truthy, ite_true, hflds]
      have hcf : contFields σ (.co a) = flds := by simp [contFields, contObjAddr, hflds]
      rw [hcf] at hlook
      rw [hlook]
      simp only [Option.getD_some, callIfIsAFunction_contVal]
      exact ih m c' σ f' htail hokm hf'
    | .cs s b, ⟨hsd, flds, hflds⟩ =>
      simp only [getVWRT, contVal, truthy, ite_true]
      obtain ⟨g, rfl⟩ : ∃ g, f' = g + 3 := ⟨f' - 3, by omega⟩
      rw [read_singleKey [] g s k σ _ flds hsd hflds,
        if_pos (allowed_empty_rw _ rfl k).1]
      have hcf : contFields σ (.cs s b) = flds := by simp [contFields, contObjAddr, hflds]
      rw [hcf] at hlook
      rw [hlook]
      simp only [Option.getD_some, callIfIsAFunction_idem, callIfIsAFunction_contVal]
      exact ih m c' σ (g + 3) htail hokm (by omega)

/-- Reading a chain prefix extended by one segment from the root store: the
entry of the last chain container at that segment, producer-materialized
(`undefined` when absent). -/
theorem read_chain_ext (sa : Nat) (sd : StoreData) (σ : Heap) :
    ∀ (pfx : List String) (k : String) (c' : Cont) (f : Nat),
    σ.stores sa = some sd → sd.defaultPolicy = .rw →
    ChainOk σ (.co sd.backing) pfx c' → contOk σ (.co sd.backing) →
    pfx.length + 9 ≤ f →
    read [] f sa (pfx ++ [k]) σ =
      .ok (callIfIsAFunction ((lookupA (contFields σ c') k).getD .undef)) σ := by
  intro pfx k c' f hsd hpol hC hback hf
  match pfx with
  | [] =>
    cases hC
    obtain ⟨flds, hflds⟩ := hback
    obtain ⟨g, rfl⟩ : ∃ g, f = g + 3 := ⟨f - 3, by omega⟩
    rw [List.nil_append, read_singleKey [] g sa k σ sd flds hsd hflds,
      if_pos (allowed_empty_rw sd hpol k).1]
    have hcf : contFields σ (.co sd.backing) = flds := by
      simp [contFields, contObjAddr, hflds]
    rw [hcf]
  | k0 :: restp =>
    obtain ⟨c₁, hlook1, hok1, _, htail⟩ := hC
    obtain ⟨flds, hflds⟩ := hback
    obtain ⟨f₂, rfl⟩ : ∃ g, f = g + 2 := ⟨f - 2, by omega⟩
    have hcf : contFields σ (.co sd.backing) = flds := by
      simp [contFields, contObjAddr, hflds]
    rw [hcf] at hlook1
    have hlen : restp.length < f₂ ∧ restp.length + 4 ≤ f₂ := by
      simp only [List.length_cons] at hf
      constructor <;> omega
    simp only [List.cons_append, read, hsd, if_pos (allowed_empty_rw sd hpol k0).1,
      readVWP, hflds, hlook1, Option.getD_some, callIfIsAFunction_contVal]
    rw [getVWRT_append [] sa [k] restp f₂ (contVal c₁) σ hlen.1]
    simp only [chain_getVWRT sa restp c₁ c' σ f₂ htail hok1 hlen.2]
    obtain ⟨g, hg⟩ : ∃ g, f₂ - restp.length = g + 4 := ⟨f₂ - restp.length - 4, by
      simp only [List.length_cons] at hf
      omega⟩
    rw [hg, getVWRT_single g sa k c' σ (ChainOk_last_ok σ restp c₁ c' htail hok1)]

/-- Looking up the key just assigned finds the assigned value. -/
theorem lookupA_setA_self (k : String) (v : Val) :
    ∀ flds, lookupA (setA flds k v) k = some v := by
  intro flds
  induction flds with
  | nil => simp [setA, lookupA]
  | cons kv rest ih =>
    by_cases h : kv.1 = k
    · simp [setA, lookupA, h]
    · simp only [setA]
      rw [if_neg h]
      simp only [lookupA]
      rw [if_neg h]
      exact ih

/-- On a store with an empty backing object, the permission-resolution walk
finds no child store: it resolves to the starting node and first segment. -/
theorem findLoop_allUndef (sa : Nat) (sd : StoreData) (k0 : String) (krest : List String)
    (σ : Heap) (hsd : σ.stores sa = some sd) (hback : σ.objs sd.backing = some []) :
    ∀ (rem i f cur : Nat) (key : String), (k0 :: krest).length - 1 - i = rem → rem + 3 ≤ f →
    findLoop [] f sa (k0 :: krest) i cur key σ = .ok (cur, key) σ := by
  intro rem
  induction rem with
  | zero =>
    intro i f cur key hrem hf
    obtain ⟨f', rfl⟩ : ∃ f', f = f' + 1 := ⟨f - 1, by omega⟩
    simp only [findLoop]
    rw [if_neg (by omega)]
  | succ rem ih =>
    intro i f cur key hrem hf
    obtain ⟨f', rfl⟩ : ∃ f', f = f' + 1 := ⟨f - 1, by omega⟩
    simp only [findLoop]
    rw [if_pos (by omega)]
    obtain ⟨g, rfl⟩ : ∃ g, f' = g + 2 := ⟨f' - 2, by omega⟩
    rw [List.take_succ_cons,
      readVWP_absent [] g sa k0 (krest.take i) σ sd [] hsd hback rfl]
    exact ih (i + 1) (g + 2) cur key (by omega) (by omega)

/-- The loop invariant of `writeValuesUntilLastKey` on a permissive root
with an initially empty backing: the containers created so far form a chain
from the backing, the current container is materialized with the next
segment absent, all chain addresses are live and below the allocation
cursor, and the rest of the initial heap is untouched (only the backing
object and freshly allocated addresses ever change). -/
def LoopInv (σ₀ : Heap) (sa : Nat) (sd : StoreData) (ks : List String)
    (σ : Heap) (c : Cont) (i : Nat) : Prop :=
  σ.stores sa = some sd ∧
  ChainOk σ (.co sd.backing) (ks.take i) c ∧
  contOk σ (.co sd.backing) ∧
  contOk σ c ∧
  lookupA (contFields σ c) (ks.getD i "") = Option.none ∧
  (∀ y ∈ contAddrs c, y < σ.next) ∧
  σ₀.next ≤ σ.next ∧
  (∀ x, x ≠ sd.backing → x < σ₀.next → σ.objs x = σ₀.objs x) ∧
  (∀ x, x < σ₀.next → σ.stores x = σ₀.stores x) ∧
  (∀ y ∈ contAddrs c, y = sd.backing ∨ σ₀.next ≤ y) ∧
  sd.backing < σ.next ∧
  sa < σ.next

/-- One creating iteration of the write loop: from a live chain whose next
segment is absent, `writeNestedKey` creates the matching container (a child
`Store` exactly for the sentinel segment `"store"`, a plain object
otherwise, and a delegated `write(key, {})` when standing on a child store)
and the invariant advances one segment. -/
theorem writeNestedStep (σ₀ : Heap) (sa : Nat) (sd : StoreData) (ks : List String)
    (i : Nat) (σ : Heap) (c : Cont) (g : Nat)
    (hINV : LoopInv σ₀ sa sd ks σ c i) (hi : i < ks.length - 1) :
    ∃ σ' c', writeNestedKey [] (g + 6) (contVal c) (ks.getD i "") σ = .ok (contVal c') σ' ∧
      LoopInv σ₀ sa sd ks σ' c' (i + 1) := by
  obtain ⟨H1, H2, H3, H4, H5, H6, H7, H8, H9, H10, H11, H12⟩ := hINV
  have hilen : i < ks.length := by omega
  have htake := take_succ_getD ks i hilen
  match c, H4 with
  | .co a, ⟨flds, hflds⟩ =>
    have ha_lt : a < σ.next := H6 a (by simp [contAddrs])
    have ha_orig : a = sd.backing ∨ σ₀.next ≤ a := H10 a (by simp [contAddrs])
    obtain ⟨fldsb, hfldsb⟩ := H3
    by_cases hkey : ks.getD i "" = "store"
    · -- sentinel segment: a child Store is created
      rw [hkey] at htake ⊢
      set σ' : Heap := { objs := updF (updF σ.objs σ.next []) a (setA flds "store" (.store (σ.next + 1))), stores := updF σ.stores (σ.next + 1) ⟨"Store", .rw, σ.next⟩, next := σ.next + 2 } with hs'
      refine ⟨σ', .cs (σ.next + 1) σ.next, ?_, ?_⟩
      · simp only [contVal, writeNestedKey, hflds, allocStore, setObj, if_true, hs']
      · have hob : ∀ x, x ≠ a → x ≠ σ.next → σ'.objs x = σ.objs x := by
          intro x hxa hxn
          rw [hs']
          exact (updF_other _ _ _ _ hxa).trans (updF_other _ _ _ _ hxn)
        have hoa : σ'.objs a = some (setA flds "store" (.store (σ.next + 1))) := by
          rw [hs']
          exact updF_self ..
        have hon : σ'.objs σ.next = some [] := by
          rw [hs']
          exact (updF_other _ _ _ _ (by omega)).trans (updF_self ..)
        have hst : ∀ x, x ≠ σ.next + 1 → σ'.stores x = σ.stores x := by
          intro x hx
          rw [hs']
          exact updF_other _ _ _ _ hx
        have hsts : σ'.stores (σ.next + 1) = some ⟨"Store", .rw, σ.next⟩ := by
          rw [hs']
          exact updF_self ..
        have hnx : σ'.next = σ.next + 2 := by rw [hs']
        have hchain : ChainOk σ' (.co sd.backing) (ks.take i) (.co a) := by
          refine ChainOk_frame σ σ' (ks.take i) _ _ H2 ?_ ⟨_, hoa⟩
          intro x hx
          have hxa : x < a := hx a (by simp [contAddrs])
          exact ⟨hob x (by omega) (by omega), hst x (by omega)⟩
        have hcf : contFields σ' (.co a) = setA flds "store" (.store (σ.next + 1)) := by
          show (σ'.objs a).getD [] = _
          rw [hoa]
          rfl
        have hcfn : contFields σ' (.cs (σ.next + 1) σ.next) = [] := by
          show (σ'.objs σ.next).getD [] = []
          rw [hon]
          rfl
        refine ⟨?_, ?_, ?_, ?_, ?_, ?_, ?_, ?_, ?_, ?_, ?_, ?_⟩
        · rw [hst sa (by omega)]
          exact H1
        · rw [htake]
          refine ChainOk_snoc _ (ks.take i) _ _ _ _ hchain ?_ ?_ ?_
          · rw [hcf, lookupA_setA_self]
            rfl
          · exact ⟨hsts, [], hon⟩
          · intro x hx y hy
            simp [contAddrs] at hx
            simp [contAddrs] at hy
            subst hx
            rcases hy with rfl | rfl <;> omega
        · by_cases hab : sd.backing = a
          · rw [hab]
            exact ⟨_, hoa⟩
          · exact ⟨fldsb, (hob sd.backing hab (by omega)).trans hfldsb⟩
        · exact ⟨hsts, [], hon⟩
        · rw [hcfn]
          rfl
        · intro y hy
          simp [contAddrs] at hy
          rw [hnx]
          rcases hy with rfl | rfl <;> omega
        · rw [hnx]
          omega
        · intro x hxb hx0
          rw [hob x ?_ (by omega)]
          · exact H8 x hxb hx0
          · rcases ha_orig with rfl | h
            · exact hxb
            · omega
        · intro x hx0
          rw [hst x (by omega)]
          exact H9 x hx0
        · intro y hy
          simp [contAddrs] at hy
          rcases hy with rfl | rfl <;> omega
        · rw [hnx]
          omega
        · rw [hnx]
          omega
    · -- ordinary segment: a plain object is created
      set σ' : Heap := { objs := updF (updF σ.objs σ.next []) a (setA flds (ks.getD i "") (.obj σ.next)), stores := σ.stores, next := σ.next + 1 } with hs'
      refine ⟨σ', .co σ.next, ?_, ?_⟩
      · simp only [contVal, writeNestedKey, hflds, allocObj, setObj, if_neg hkey, hs']
      · have hob : ∀ x, x ≠ a → x ≠ σ.next → σ'.objs x = σ.objs x := by
          intro x hxa hxn
          rw [hs']
          exact (updF_other _ _ _ _ hxa).trans (updF_other _ _ _ _ hxn)
        have hoa : σ'.objs a = some (setA flds (ks.getD i "") (.obj σ.next)) := by
          rw [hs']
          exact updF_self ..
        have hon : σ'.objs σ.next = some [] := by
          rw [hs']
          exact (updF_other _ _ _ _ (by omega)).trans (updF_self ..)
        have hnx : σ'.next = σ.next + 1 := by rw [hs']
        have hstq : σ'.stores = σ.stores := by rw [hs']
        have hchain : ChainOk σ' (.co sd.backing) (ks.take i) (.co a) := by
          refine ChainOk_frame σ σ' (ks.take i) _ _ H2 ?_ ⟨_, hoa⟩
          intro x hx
          have hxa : x < a := hx a (by simp [contAddrs])
          exact ⟨hob x (by omega) (by omega), by rw [hstq]⟩
        have hcf : contFields σ' (.co a) = setA flds (ks.getD i "") (.obj σ.next) := by
          show (σ'.objs a).getD [] = _
          rw [hoa]
          rfl
        have hcfn : contFields σ' (.co σ.next) = [] := by
          show (σ'.objs σ.next).getD [] = []
          rw [hon]
          rfl
        refine ⟨?_, ?_, ?_, ?_, ?_, ?_, ?_, ?_, ?_, ?_, ?_, ?_⟩
        · rw [hstq]
          exact H1
        · rw [htake]
          refine ChainOk_snoc _ (ks.take i) _ _ _ _ hchain ?_ ?_ ?_
          · rw [hcf, lookupA_setA_self]
            rfl
          · exact ⟨[], hon⟩
          · intro x hx y hy
            simp [contAddrs] at hx hy
            omega
        · by_cases hab : sd.backing = a
          · rw [hab]
            exact ⟨_, hoa⟩
          · exact ⟨fldsb, (hob sd.backing hab (by omega)).trans hfldsb⟩
        · exact ⟨[], hon⟩
        · rw [hcfn]
          rfl
        · intro y hy
          simp [contAddrs] at hy
          rw [hnx]
          omega
        · rw [hnx]
          omega
        · intro x hxb hx0
          rw [hob x ?_ (by omega)]
          · exact H8 x hxb hx0
          · rcases ha_orig with rfl | h
            · exact hxb
            · omega
        · intro x hx0
          rw [hstq]
          exact H9 x hx0
        · intro y hy
          simp [contAddrs] at hy
          omega
        · rw [hnx]
          omega
        · rw [hnx]
          omega
  | .cs s b, ⟨hsdc, flds, hflds⟩ =>
    have hs_lt : s < σ.next := H6 s (by simp [contAddrs])
    have hb_lt : b < σ.next := H6 b (by simp [contAddrs])
    have hb_orig : b = sd.backing ∨ σ₀.next ≤ b := by
      have := H10 b (by simp [contAddrs])
      exact this
    obtain ⟨fldsb, hfldsb⟩ := H3
    set σ' : Heap := { objs := updF (updF σ.objs σ.next []) b (setA flds (ks.getD i "") (.obj σ.next)), stores := σ.stores, next := σ.next + 1 } with hs'
    refine ⟨σ', .co σ.next, ?_, ?_⟩
    · simp only [contVal, writeNestedKey, allocObj]
      obtain ⟨g', hg'⟩ : ∃ g', g + 5 = g' + 4 := ⟨g + 1, by omega⟩
      rw [hg', write_singleKey_ok [] g' s (ks.getD i "") (.obj σ.next)
          { objs := updF σ.objs σ.next [], stores := σ.stores, next := σ.next + 1 }
          ⟨"Store", .rw, b⟩ flds hsdc
          (by rw [show (({ objs := updF σ.objs σ.next [], stores := σ.stores, next := σ.next + 1 } : Heap)).objs = updF σ.objs σ.next [] from rfl, updF_other _ _ _ _ (by omega : b ≠ σ.next)]; exact hflds)
          ((allowed_empty_rw _ rfl _).2)
          (Or.inr (Or.inl ⟨σ.next, rfl, updF_self ..⟩))]
      simp only [setObj, hs']
    · have hob : ∀ x, x ≠ b → x ≠ σ.next → σ'.objs x = σ.objs x := by
        intro x hxb hxn
        rw [hs']
        exact (updF_other _ _ _ _ hxb).trans (updF_other _ _ _ _ hxn)
      have hobb : σ'.objs b = some (setA flds (ks.getD i "") (.obj σ.next)) := by
        rw [hs']
        exact updF_self ..
      have hon : σ'.objs σ.next = some [] := by
        rw [hs']
        exact (updF_other _ _ _ _ (by omega)).trans (updF_self ..)
      have hnx : σ'.next = σ.next + 1 := by rw [hs']
      have hstq : σ'.stores = σ.stores := by rw [hs']
      have hchain : ChainOk σ' (.co sd.backing) (ks.take i) (.cs s b) := by
        refine ChainOk_frame σ σ' (ks.take i) _ _ H2 ?_ ⟨by rw [hstq]; exact hsdc, _, hobb⟩
        intro x hx
        have hxb : x < b := hx b (by simp [contAddrs])
        exact ⟨hob x (by omega) (by omega), by rw [hstq]⟩
      have hcf : contFields σ' (.cs s b) = setA flds (ks.getD i "") (.obj σ.next) := by
        show (σ'.objs b).getD [] = _
        rw [hobb]
        rfl
      have hcfn : contFields σ' (.co σ.next) = [] := by
        show (σ'.objs σ.next).getD [] = []
        rw [hon]
        rfl
      refine ⟨?_, ?_, ?_, ?_, ?_, ?_, ?_, ?_, ?_, ?_, ?_, ?_⟩
      · rw [hstq]
        exact H1
      · rw [htake]
        refine ChainOk_snoc _ (ks.take i) _ _ _ _ hchain ?_ ?_ ?_
        · rw [hcf, lookupA_setA_self]
          rfl
        · exact ⟨[], hon⟩
        · intro x hx y hy
          simp [contAddrs] at hx
          simp [contAddrs] at hy
          rcases hx with rfl | rfl <;> omega
      · by_cases hab : sd.backing = b
        · rw [hab]
          exact ⟨_, hobb⟩
        · exact ⟨fldsb, (hob sd.backing hab (by omega)).trans hfldsb⟩
      · exact ⟨[], hon⟩
      · rw [hcfn]
        rfl
      · intro y hy
        simp [contAddrs] at hy
        rw [hnx]
        omega
      · rw [hnx]
        omega
      · intro x hxb hx0
        rw [hob x ?_ (by omega)]
        · exact H8 x hxb hx0
        · rcases hb_orig with rfl | h
          · exact hxb
          · omega
      · intro x hx0
        rw [hstq]
        exact H9 x hx0
      · intro y hy
        simp [contAddrs] at hy
        omega
      · rw [hnx]
        omega
      · rw [hnx]
        omega

/-- The mutation-phase loop on a permissive root: starting anywhere in the
invariant, it creates the remaining intermediate containers and stops on the
last segment's container with the whole invariant re-established. -/
theorem writeLoop_chain (σ₀ : Heap) (sa : Nat) (sd : StoreData) (ks : List String)
    (hpol : sd.defaultPolicy = .rw) :
    ∀ (rem i : Nat) (σ : Heap) (c : Cont) (f : Nat),
    i + rem = ks.length - 1 →
    LoopInv σ₀ sa sd ks σ c i →
    ks.length + rem + 12 ≤ f →
    ∃ σ' c', writeValuesUntilLastKey [] f sa ks i (contVal c) σ = .ok (contVal c') σ' ∧
      LoopInv σ₀ sa sd ks σ' c' (ks.length - 1) := by
  intro rem
  induction rem with
  | zero =>
    intro i σ c f hrem hINV hf
    have hieq : i = ks.length - 1 := by omega
    subst hieq
    obtain ⟨f', rfl⟩ : ∃ f', f = f' + 1 := ⟨f - 1, by omega⟩
    refine ⟨σ, c, ?_, hINV⟩
    simp only [writeValuesUntilLastKey]
    rw [if_neg (by omega)]
  | succ rem ih =>
    intro i σ c f hrem hINV hf
    have hi : i < ks.length - 1 := by omega
    obtain ⟨f', rfl⟩ : ∃ f', f = f' + 1 := ⟨f - 1, by omega⟩
    have hINVkeep := hINV
    obtain ⟨H1, H2, H3, H4, H5, H6, H7, H8, H9, H10, H11, H12⟩ := hINV
    have htakeL : (ks.take i).length = i := by
      rw [List.length_take]
      omega
    have hrd : read [] f' sa (ks.take i ++ [ks.getD i ""]) σ = .ok .undef σ := by
      rw [read_chain_ext sa sd σ (ks.take i) (ks.getD i "") c f' H1 hpol H2 H3
        (by rw [htakeL]; omega)]
      rw [H5]
      rfl
    obtain ⟨g, rfl⟩ : ∃ g, f' = g + 6 := ⟨f' - 6, by omega⟩
    obtain ⟨σ2, c2, hstep, hINV2⟩ := writeNestedStep σ₀ sa sd ks i σ c g hINVkeep hi
    obtain ⟨σ3, c3, hloop, hINV3⟩ := ih (i + 1) σ2 c2 (g + 6) (by omega) hINV2 (by omega)
    refine ⟨σ3, c3, ?_, hINV3⟩
    rw [writeValuesUntilLastKey]
    rw [if_pos (by omega), take_succ_getD ks i (by omega)]
    simp only [hrd, truthy, Bool.false_eq_true, if_false, hstep, hloop]

/-- The final segment's write on the container the loop stopped on: a
non-`null` scalar, or an empty object, is assigned directly into the
container's entries (through a delegated single-key `write` when the
container is a child store). -/
theorem writeLastStep (σ₀ : Heap) (sa : Nat) (sd : StoreData) (ks : List String) (v : Val)
    (σ' : Heap) (c' : Cont) (g : Nat)
    (hINV : LoopInv σ₀ sa sd ks σ' c' (ks.length - 1))
    (hv : (∃ p, v = .prim p ∧ p ≠ .null) ∨
      (∃ e, v = .obj e ∧ σ₀.objs e = some [] ∧ e < σ₀.next ∧ e ≠ sd.backing)) :
    writeLastKeyValue [] (g + 5) sa ks v (contVal c') σ' =
      .ok () (setObj σ' (contObjAddr c')
        (setA (contFields σ' c') (ks.getD (ks.length - 1) "") v)) := by
  obtain ⟨H1, H2, H3, H4, H5, H6, H7, H8, H9, H10, H11, H12⟩ := hINV
  rcases hv with ⟨p, rfl, hp⟩ | ⟨e, rfl, he0, helt, heb⟩
  · have hobj : jsTypeofObject (.prim p) = false := by
      match p, hp with
      | .str s, _ => rfl
      | .num n, _ => rfl
      | .bool b, _ => rfl
    match c', H4 with
    | .co a, ⟨flds, hflds⟩ =>
      have hcf : contFields σ' (.co a) = flds := by
        show (σ'.objs a).getD [] = flds
        rw [hflds]
        rfl
      simp only [writeLastKeyValue, hobj, Bool.false_eq_true, and_false, if_false, contVal,
        hflds, hcf, contObjAddr]
    | .cs s b, ⟨hsd', flds, hflds⟩ =>
      have hcf : contFields σ' (.cs s b) = flds := by
        show (σ'.objs b).getD [] = flds
        rw [hflds]
        rfl
      simp only [writeLastKeyValue, hobj, Bool.false_eq_true, and_false, if_false, contVal]
      rw [write_singleKey_ok [] g s (ks.getD (ks.length - 1) "") (.prim p) σ'
        ⟨"Store", .rw, b⟩ flds hsd' hflds (allowed_empty_rw _ rfl _).2 (Or.inl hobj)]
      rw [hcf]
      rfl
  · have he' : σ'.objs e = some [] := by
      rw [H8 e heb helt]
      exact he0
    match c', H4 with
    | .co a, ⟨flds, hflds⟩ =>
      have hcf : contFields σ' (.co a) = flds := by
        show (σ'.objs a).getD [] = flds
        rw [hflds]
        rfl
      simp only [writeLastKeyValue, isStoreVal, jsTypeofObject, contVal, he',
        List.isEmpty_nil, if_true, hflds, hcf, contObjAddr]
      rfl
    | .cs s b, ⟨hsd', flds, hflds⟩ =>
      have hcf : contFields σ' (.cs s b) = flds := by
        show (σ'.objs b).getD [] = flds
        rw [hflds]
        rfl
      simp only [writeLastKeyValue, isStoreVal, jsTypeofObject, contVal, he',
        List.isEmpty_nil, if_true]
      rw [write_singleKey_ok [] g s (ks.getD (ks.length - 1) "") (.obj e) σ'
        ⟨"Store", .rw, b⟩ flds hsd' hflds (allowed_empty_rw _ rfl _).2
        (Or.inr (Or.inl ⟨e, rfl, he'⟩))]
      rw [hcf]
      rfl

/-- Reading the whole path back after the final assignment: the chain still
leads to the final container, whose freshly written entry is returned
(producer-materialization leaves scalars and objects unchanged). -/
theorem readBackStep (σ₀ : Heap) (sa : Nat) (sd : StoreData) (ks : List String) (v : Val)
    (σ' : Heap) (c' : Cont) (F : Nat)
    (hINV : LoopInv σ₀ sa sd ks σ' c' (ks.length - 1))
    (hpol : sd.defaultPolicy = .rw)
    (hks : ks ≠ [])
    (hnotfn : callIfIsAFunction v = v)
    (hF : ks.length + 9 ≤ F) :
    read [] F sa ks (setObj σ' (contObjAddr c')
        (setA (contFields σ' c') (ks.getD (ks.length - 1) "") v)) =
      .ok v (setObj σ' (contObjAddr c')
        (setA (contFields σ' c') (ks.getD (ks.length - 1) "") v)) := by
  obtain ⟨H1, H2, H3, H4, H5, H6, H7, H8, H9, H10, H11, H12⟩ := hINV
  have hlen : 0 < ks.length := List.length_pos.mpr hks
  set lastKey := ks.getD (ks.length - 1) "" with hlk
  set σ'' := setObj σ' (contObjAddr c') (setA (contFields σ' c') lastKey v) with hs''
  have hsplit : ks.take (ks.length - 1) ++ [lastKey] = ks := by
    rw [hlk, ← take_succ_getD ks (ks.length - 1) (by omega)]
    have : ks.length - 1 + 1 = ks.length := by omega
    rw [this, List.take_length]
  have hstq : σ''.stores = σ'.stores := by rw [hs'', setObj]
  have hoA : σ''.objs (contObjAddr c') = some (setA (contFields σ' c') lastKey v) := by
    rw [hs'', setObj]
    exact updF_self ..
  have hob : ∀ x, x ≠ contObjAddr c' → σ''.objs x = σ'.objs x := by
    intro x hx
    rw [hs'', setObj]
    exact updF_other _ _ _ _ hx
  have hokC : contOk σ'' c' := by
    match c', H4 with
    | .co a, ⟨flds, hflds⟩ => exact ⟨_, hoA⟩
    | .cs s b, ⟨hsd', flds, hflds⟩ =>
      refine ⟨?_, _, hoA⟩
      rw [hstq]
      exact hsd'
  have hchain : ChainOk σ'' (.co sd.backing) (ks.take (ks.length - 1)) c' := by
    refine ChainOk_frame σ' σ'' (ks.take (ks.length - 1)) _ _ H2 ?_ hokC
    intro x hx
    have hxA : x < contObjAddr c' := by
      refine hx (contObjAddr c') ?_
      match c' with
      | .co a => simp [contAddrs, contObjAddr]
      | .cs s b => simp [contAddrs, contObjAddr]
    exact ⟨hob x (by omega), by rw [hstq]⟩
  have hback'' : contOk σ'' (.co sd.backing) := by
    obtain ⟨fldsb, hfldsb⟩ := H3
    by_cases hab : sd.backing = contObjAddr c'
    · rw [show contOk σ'' (.co sd.backing) = ∃ flds, σ''.objs sd.backing = some flds from rfl,
        hab]
      exact ⟨_, hoA⟩
    · exact ⟨fldsb, (hob sd.backing hab).trans hfldsb⟩
  have hcf'' : contFields σ'' c' = setA (contFields σ' c') lastKey v := by
    show (σ''.objs (contObjAddr c')).getD [] = _
    rw [hoA]
    rfl
  have h1'' : σ''.stores sa = some sd := by
    rw [hstq]
    exact H1
  calc read [] F sa ks σ''
      = read [] F sa (ks.take (ks.length - 1) ++ [lastKey]) σ'' := by rw [hsplit]
    _ = .ok (callIfIsAFunction ((lookupA (contFields σ'' c') lastKey).getD .undef)) σ'' := by
        refine read_chain_ext sa sd σ'' (ks.take (ks.length - 1)) lastKey c' F h1'' hpol
          hchain hback'' ?_
        rw [List.length_take]
        omega
    _ = .ok v σ'' := by
        rw [hcf'', lookupA_setA_self]
        simp only [Option.getD_some, hnotfn]

/-- C3 (amended to the values the code stores verbatim: JSON scalars other
than `null`, and empty objects — empty arrays behave identically): on a
root store with a permissive policy (`defaultPolicy rw`, empty registry —
the claim's "path on which both write and read are permitted") and an
initially empty mapping, for every non-empty path, `write(P, V)` raises no
error and returns V, and a subsequent `read(P)` returns exactly V.  The
intermediate containers are created on demand (child `Store`s at sentinel
segments, plain objects elsewhere), and the read traverses them back to the
stored value. -/
theorem claim_C3_round_trip (ks : List String) (v : Val) (σ₀ : Heap) (sa : Nat)
    (sd : StoreData) (F : Nat)
    (hks : ks ≠ [])
    (hsd : σ₀.stores sa = some sd)
    (hpol : sd.defaultPolicy = .rw)
    (hback : σ₀.objs sd.backing = some [])
    (hblt : sd.backing < σ₀.next)
    (hsalt : sa < σ₀.next)
    (hv : (∃ p, v = .prim p ∧ p ≠ .null) ∨
      (∃ e, v = .obj e ∧ σ₀.objs e = some [] ∧ e < σ₀.next ∧ e ≠ sd.backing))
    (hF : 2 * ks.length + 20 ≤ F) :
    ∃ σ', write [] F sa ks v σ₀ = .ok v σ' ∧ read [] F sa ks σ' = .ok v σ' := by
  match ks, hks with
  | k0 :: krest, _ =>
    obtain ⟨g, rfl⟩ : ∃ g, F = g + 7 := ⟨F - 7, by omega⟩
    have hlen : (k0 :: krest).length = krest.length + 1 := rfl
    have hph1 : getHasPermissionToWriteAt [] (g + 6) sa (k0 :: krest) σ₀ = .ok () σ₀ := by
      simp only [getHasPermissionToWriteAt, findStoreToWriteTo]
      rw [findLoop_allUndef sa sd k0 krest σ₀ hsd hback ((k0 :: krest).length - 1) 0 (g + 4)
        sa k0 (by omega) (by omega)]
      simp only [hsd, (allowed_empty_rw sd hpol k0).2, if_true]
    have hINV0 : LoopInv σ₀ sa sd (k0 :: krest) σ₀ (.co sd.backing) 0 := by
      refine ⟨hsd, rfl, ⟨[], hback⟩, ⟨[], hback⟩, ?_, ?_, le_refl _, fun x _ _ => rfl,
        fun x _ => rfl, ?_, hblt, hsalt⟩
      · show lookupA ((σ₀.objs sd.backing).getD []) _ = Option.none
        rw [hback]
        rfl
      · intro y hy
        simp [contAddrs] at hy
        omega
      · intro y hy
        simp [contAddrs] at hy
        omega
    obtain ⟨σ', c', hloop, hINV'⟩ := writeLoop_chain σ₀ sa sd (k0 :: krest) hpol
      ((k0 :: krest).length - 1) 0 σ₀ (.co sd.backing) (g + 5) (by omega) hINV0 (by omega)
    have hloop' : writeValuesUntilLastKey [] (g + 5) sa (k0 :: krest) 0 (.obj sd.backing) σ₀ =
        .ok (contVal c') σ' := hloop
    have hnotfn : callIfIsAFunction v = v := by
      rcases hv with ⟨p, rfl, _⟩ | ⟨e, rfl, _, _, _⟩ <;> rfl
    have hwr : write [] (g + 7) sa (k0 :: krest) v σ₀ =
        .ok v (setObj σ' (contObjAddr c')
          (setA (contFields σ' c') ((k0 :: krest).getD ((k0 :: krest).length - 1) "") v)) := by
      simp only [write, hph1, writeWithoutPermission, hsd, hloop',
        writeLastStep σ₀ sa sd (k0 :: krest) v σ' c' g hINV' hv]
    refine ⟨_, hwr, ?_⟩
    exact readBackStep σ₀ sa sd (k0 :: krest) v σ' c' (g + 7) hINV' hpol (by simp) hnotfn
      (by simp only [List.length_cons] at hF ⊢; omega)

/-- A fresh root store plus a non-empty array `[1, 2]` at address 2 (in JS an
array is an object whose own keys are "0", "1", …). -/
def arrHeap : Heap :=
  { objs := fun x =>
      if x = 0 then some []
      else if x = 2 then some [("0", .prim (.num 1)), ("1", .prim (.num 2))]
      else Option.none,
    stores := fun x => if x = 1 then some rootSD else Option.none,
    next := 3 }

/-- C3 counterexample to the claim as frozen, on a fresh permissive root
(every path permitted): (1) `write("a", null)` raises a TypeError rather
than returning null — `typeof null === "object"`, so `writeLastKeyValue`
reaches `isEmptyObject(null)`, and `Object.keys(null)` throws; (2) for the
non-empty array `[1, 2]`, `write("a", [1,2])` does return the array, but
the array was flattened entry-by-entry into a freshly created plain object,
so the subsequent `read("a")` returns that other object (address 3), not the
array written (address 2). -/
theorem claim_C3_counterexample :
    (write [] 30 1 ["a"] (.prim .null) baseHeap).val = .err .typeError ∧
    (write [] 30 1 ["a"] (.obj 2) arrHeap).val = .ok (.obj 2) ∧
    (read [] 30 1 ["a"] ((write [] 30 1 ["a"] (.obj 2) arrHeap).st)).val = .ok (.obj 3) ∧
    Out.ok (Val.obj 3) ≠ Out.ok (Val.obj 2) := by
  refine ⟨?_, ?_, ?_, by decide⟩ <;> decide

/-- C3 witness: on a fresh root (class `Root`, defaultPolicy `rw`, empty
registry), writing the scalar 7 at path `a` echoes 7 and reading `a` back
returns 7. -/
theorem claim_C3_round_trip_witness :
    ∃ σ', write [] 22 1 ["a"] (.prim (.num 7)) baseHeap = .ok (.prim (.num 7)) σ' ∧
      read [] 22 1 ["a"] σ' = .ok (.prim (.num 7)) σ' :=
  claim_C3_round_trip ["a"] (.prim (.num 7)) baseHeap 1 rootSD 22
    (by decide) rfl rfl rfl (by decide) (by decide)
    (Or.inl ⟨.num 7, rfl, by decide⟩) (by decide)

/-- C5 witness: the sentinel theorem applied at the concrete non-sentinel
middle segment `"x"` and fuel offset 0. -/
theorem claim_C5_sentinel_substore_witness :
    ("x" ≠ "store") ∧
    (((write [] 40 1 ["outer", "store", "inner"] (.prim (.num 7)) pureHeap).val =
        .ok (.prim (.num 7)) ∧
      ((write [] 40 1 ["outer", "store", "inner"] (.prim (.num 7)) pureHeap).st).objs 0 =
        some [("outer", .obj 2)] ∧
      ((write [] 40 1 ["outer", "store", "inner"] (.prim (.num 7)) pureHeap).st).objs 2 =
        some [("store", .store 4)] ∧
      ((write [] 40 1 ["outer", "store", "inner"] (.prim (.num 7)) pureHeap).st).stores 4 =
        some ⟨"Store", .rw, 3⟩ ∧
      (read [] 40 1 ["outer", "store", "inner"]
        (write [] 40 1 ["outer", "store", "inner"] (.prim (.num 7)) pureHeap).st).val =
        .ok (.prim (.num 7))) ∧
    ((write [] 20 1 ["outer", "x", "inner"] (.prim (.num 7)) pureHeap).val =
        .ok (.prim (.num 7)) ∧
      ((write [] 20 1 ["outer", "x", "inner"] (.prim (.num 7)) pureHeap).st).objs 2 =
        some [("x", .obj 3)] ∧
      (∀ x, ((write [] 20 1 ["outer", "x", "inner"] (.prim (.num 7)) pureHeap).st).stores x =
        pureHeap.stores x) ∧
      (read [] 20 1 ["outer", "x", "inner"]
        (write [] 20 1 ["outer", "x", "inner"] (.prim (.num 7)) pureHeap).st).val =
        .ok (.prim (.num 7))) ∧
    ((write [("Store.inner", .w)] 40 1 ["outer", "store", "inner"] (.prim (.num 7)) baseHeap).val =
        .ok (.prim (.num 7)) ∧
      (read [("Store.inner", .w)] 40 1 ["outer", "store", "inner"]
        (write [("Store.inner", .w)] 40 1 ["outer", "store", "inner"] (.prim (.num 7))
          baseHeap).st).val = .err .permissionDenied ∧
      (write [("Root.inner", .none)] 40 1 ["outer", "store", "inner"] (.prim (.num 7))
        baseHeap).val = .ok (.prim (.num 7)) ∧
      (read [("Root.inner", .none)] 40 1 ["outer", "store", "inner"]
        (write [("Root.inner", .none)] 40 1 ["outer", "store", "inner"] (.prim (.num 7))
          baseHeap).st).val = .ok (.prim (.num 7)))) :=
  ⟨by decide, claim_C5_sentinel_substore 0 "x" (by decide)⟩
